import Mathlib

/-!
# Transition tables of V8 hidden classes: `deps/v8/src/transitions-inl.h`

A shallow embedding of the inline part of V8's transition arrays and of the
`TransitionsAccessor` that reads them, followed by theorems about the key
comparator, the capacity arithmetic, the assertions guarding indexed access
and the reading of weak targets.

Conventions of the embedding.

* C++ `int` is `Int`; `uint32_t` hash values are `Nat` (they are only ever
  compared, never computed with, so no wrap-around is involved and every
  statement proved for all naturals holds for the 32-bit ones).
* Heap objects are values of the inductive type `Object`; pointer identity of
  names is equality of their addresses.
* The embedding is that of a build with `DCHECK` enabled: a failed `DCHECK`,
  a failed checked cast, an out-of-bounds `FixedArray` access and
  `UNREACHABLE()` all end the computation, which is `Except.error` below.
* The primitives of `objects.h` that the file calls (`FixedArray::get`, `set`
  and `length`, the checked casts, `Smi`, `MaybeObject`) are embedded with their
  checks; `Smi::FromInt` is total, as on a 64-bit build, where every `int` is a
  valid Smi.
* A member function that writes a field of its object returns the new object
  next to its result; an out-parameter is passed in and returned.
* The halving loop of the binary search takes a bound on its iterations; the
  theorems show that the bound `SearchName` passes is never reached.
-/

namespace V8

/-! ## Names, property kinds and attributes -/

/-- A `Name*`: an interned heap object, identified by its address. -/
structure Name where
  addr : Nat
  deriving DecidableEq, Repr

/-- Modelled from the spec: `enum PropertyKind` is declared in
`property-details.h`, which is absent; the spec gives its two values and that
`data` comes before `accessor`. -/
inductive PropertyKind where
  | kData
  | kAccessor
  deriving DecidableEq, Repr

/-- The integer a `static_cast<int>(kind)` yields. -/
def PropertyKind.toInt : PropertyKind → Int
  | .kData => 0
  | .kAccessor => 1

/-- A `PropertyAttributes` value, an enum used as a bit set; it is kept as the
number of its bits. -/
structure PropertyAttributes where
  bits : Nat
  deriving DecidableEq, Repr

/-- The integer a `static_cast<int>(attributes)` yields. -/
def PropertyAttributes.toInt (a : PropertyAttributes) : Int := Int.ofNat a.bits

/-! ## The key comparator (`TransitionArray::CompareKeys` and helpers) -/

/-- Embeds `TransitionArray::CompareNames`. -/
def CompareNames (key1 : Name) (hash1 : Nat) (key2 : Name) (hash2 : Nat) : Int :=
  if key1 ≠ key2 then
    -- In case of hash collisions key1 is always "less" than key2.
    if hash1 ≤ hash2 then -1 else 1
  else
    0

/-- Embeds `TransitionArray::CompareDetails`. -/
def CompareDetails (kind1 : PropertyKind) (attributes1 : PropertyAttributes)
    (kind2 : PropertyKind) (attributes2 : PropertyAttributes) : Int :=
  if kind1 ≠ kind2 then
    if kind1.toInt < kind2.toInt then -1 else 1
  else if attributes1 ≠ attributes2 then
    if attributes1.toInt < attributes2.toInt then -1 else 1
  else
    0

/-- Embeds `TransitionArray::CompareKeys`. -/
def CompareKeys (key1 : Name) (hash1 : Nat) (kind1 : PropertyKind)
    (attributes1 : PropertyAttributes) (key2 : Name) (hash2 : Nat)
    (kind2 : PropertyKind) (attributes2 : PropertyAttributes) : Int :=
  let cmp := CompareNames key1 hash1 key2 hash2
  if cmp ≠ 0 then cmp
  else CompareDetails kind1 attributes1 kind2 attributes2

/-- A transition key together with the hash of its name, as the callers of
`CompareKeys` pass them. -/
structure Key where
  name : Name
  hash : Nat
  kind : PropertyKind
  attributes : PropertyAttributes
  deriving DecidableEq, Repr

/-- The comparator `CompareKeys` applied to two keys. -/
def Key.compare (a b : Key) : Int :=
  CompareKeys a.name a.hash a.kind a.attributes b.name b.hash b.kind b.attributes

/-- The hash of a key is a function of its name, for the two keys at hand. -/
def HashOfName (a b : Key) : Prop := a.name = b.name → a.hash = b.hash

/-- No collision between the two keys: different names have different hashes. -/
def NoCollision (a b : Key) : Prop := a.name ≠ b.name → a.hash ≠ b.hash

/-- The two keys differ as `(name, kind, attributes)` triples. -/
def Key.Distinct (a b : Key) : Prop :=
  a.name ≠ b.name ∨ a.kind ≠ b.kind ∨ a.attributes ≠ b.attributes

instance (a b : Key) : Decidable (HashOfName a b) := by
  unfold HashOfName
  infer_instance

instance (a b : Key) : Decidable (NoCollision a b) := by
  unfold NoCollision
  infer_instance

instance (a b : Key) : Decidable (Key.Distinct a b) := by
  unfold Key.Distinct
  infer_instance

/-- Three keys free of collisions, in ascending order: `orderedA` and `orderedB`
share a name, `orderedC` has another name and a greater hash. -/
def Key.orderedA : Key := ⟨⟨1⟩, 3, .kData, ⟨0⟩⟩

/-- See `Key.orderedA`. -/
def Key.orderedB : Key := ⟨⟨1⟩, 3, .kAccessor, ⟨0⟩⟩

/-- See `Key.orderedA`. -/
def Key.orderedC : Key := ⟨⟨2⟩, 9, .kData, ⟨4⟩⟩

/-- Three keys over two names whose hashes collide. -/
def Key.collisionA : Key := ⟨⟨1⟩, 7, .kAccessor, ⟨0⟩⟩

/-- See `Key.collisionA`: another name, the same hash. -/
def Key.collisionB : Key := ⟨⟨2⟩, 7, .kData, ⟨0⟩⟩

/-- See `Key.collisionA`: the name of `collisionA`, a smaller kind. -/
def Key.collisionC : Key := ⟨⟨1⟩, 7, .kData, ⟨0⟩⟩

/-! ## Aborts -/

/-- The ways a computation of this file ends without returning. -/
inductive Abort where
  /-- The statement `UNREACHABLE()` was executed. -/
  | unreachable
  /-- A `DCHECK` written in `transitions-inl.h` failed. -/
  | dcheck
  /-- A checked cast (`Map::cast`, `Name::cast`, ...) or a typed reference
  accessor met an object of another type. -/
  | cast
  /-- A `FixedArray` or `DescriptorArray` index was out of bounds. -/
  | bounds
  /-- The value of a cleared weak cell was asked for. -/
  | clearedCell
  /-- A loop of the embedding was given too few iterations; no run of the code
  ends so. -/
  | fuel
  deriving DecidableEq, Repr

/-- Embeds `DCHECK(condition)`. -/
def DCHECK (condition : Bool) : Except Abort Unit :=
  if condition then .ok () else .error .dcheck

/-! ## Maps and their descriptors -/

/-- Embeds `PropertyDetails`, reduced to the two components the transition key uses. -/
structure PropertyDetails where
  kind : PropertyKind
  attributes : PropertyAttributes
  deriving DecidableEq, Repr

/-- One entry of a `DescriptorArray`. -/
structure Descriptor where
  key : Name
  details : PropertyDetails
  deriving DecidableEq, Repr

/-- A `DescriptorArray`. -/
abbrev DescriptorArray := List Descriptor

/-- A `Map` (hidden class), as far as this file reads it: its identity, the
result of `Map::LastAdded()` and its `instance_descriptors()`. -/
structure Map where
  addr : Nat
  LastAdded : Int
  instance_descriptors : DescriptorArray
  deriving DecidableEq, Repr

/-- The descriptor at an `int` index, with the bounds check of the array. -/
def DescriptorArray.at (descriptors : DescriptorArray) (descriptor : Int) :
    Except Abort Descriptor :=
  if 0 ≤ descriptor then
    match descriptors[descriptor.toNat]? with
    | some d => .ok d
    | none => .error .bounds
  else .error .bounds

/-- Embeds `DescriptorArray::GetKey`. -/
def DescriptorArray.GetKey (descriptors : DescriptorArray) (descriptor : Int) :
    Except Abort Name :=
  (descriptors.at descriptor).map Descriptor.key

/-- Embeds `DescriptorArray::GetDetails`. -/
def DescriptorArray.GetDetails (descriptors : DescriptorArray) (descriptor : Int) :
    Except Abort PropertyDetails :=
  (descriptors.at descriptor).map Descriptor.details

/-- Modelled from the spec: `Name::Equals` is declared in `objects.h`, which is
absent; by the spec name identity is canonical, so equality of names is identity
comparison. -/
def Name.Equals (a b : Name) : Bool := decide (a = b)

/-! ## Heap objects -/

/-- The heap objects a transition table holds or refers to. -/
inductive Object where
  /-- A small integer. -/
  | smi (value : Int)
  /-- The `undefined` oddball. -/
  | undefined
  | name (n : Name)
  | map (m : Map)
  /-- A weak cell the collector has not cleared, holding `value`. -/
  | weakCell (value : Object)
  /-- A weak cell the collector has cleared. -/
  | clearedWeakCell
  /-- A store handler, holding its transition cell. -/
  | storeHandler (transitionCell : Object)
  /-- A plain `FixedArray` (the prototype-transitions side array), by address. -/
  | fixedArray (addr : Nat)
  /-- A `PrototypeInfo`, by address. -/
  | prototypeInfo (addr : Nat)
  /-- A `TransitionArray`: a `FixedArray` with the given slots. -/
  | transitionArray (slots : List Object)

/-- A `TransitionArray*`: the slots of the underlying `FixedArray`. -/
abbrev TransitionArray := List Object

/-- Embeds `Smi::kZero`. -/
def Smi.kZero : Object := .smi 0

/-- Embeds `Smi::FromInt`. -/
def Smi.FromInt (value : Int) : Object := .smi value

/-- Embeds `Smi::ToInt`, with the type check of the cast. -/
def Smi.ToInt : Object → Except Abort Int
  | .smi value => .ok value
  | _ => .error .cast

/-- Embeds `Map::cast`. -/
def Map.cast : Object → Except Abort Map
  | .map m => .ok m
  | _ => .error .cast

/-- Embeds `Name::cast`. -/
def Name.cast : Object → Except Abort Name
  | .name n => .ok n
  | _ => .error .cast

/-- Embeds `WeakCell::cast`: the object itself when it is a weak cell. -/
def WeakCell.cast : Object → Except Abort Object
  | .weakCell value => .ok (.weakCell value)
  | .clearedWeakCell => .ok .clearedWeakCell
  | _ => .error .cast

/-- Embeds `FixedArray::cast`: the object itself when it is a fixed array. -/
def FixedArray.cast : Object → Except Abort Object
  | .fixedArray addr => .ok (.fixedArray addr)
  | .transitionArray slots => .ok (.transitionArray slots)
  | _ => .error .cast

/-- Embeds `TransitionArray::cast`. -/
def TransitionArray.cast : Object → Except Abort TransitionArray
  | .transitionArray slots => .ok slots
  | _ => .error .cast

/-- Embeds `Object::IsWeakCell`. -/
def Object.IsWeakCell : Object → Bool
  | .weakCell _ => true
  | .clearedWeakCell => true
  | _ => false

/-- Embeds `Object::IsUndefined`. -/
def Object.IsUndefined : Object → Bool
  | .undefined => true
  | _ => false

/-- Embeds `Object::IsMap`. -/
def Object.IsMap : Object → Bool
  | .map _ => true
  | _ => false

/-- Embeds `Object::IsFixedArray`. -/
def Object.IsFixedArray : Object → Bool
  | .fixedArray _ => true
  | .transitionArray _ => true
  | _ => false

/-- The comparison `object == Smi::kZero`. -/
def Object.isSmiZero : Object → Bool
  | .smi value => decide (value = 0)
  | _ => false

/-- Modelled from the spec: `WeakCell::cleared()` is declared in `objects.h`,
which is absent; it is the spec's `token.isCleared()`. -/
def WeakCell.cleared : Object → Except Abort Bool
  | .weakCell _ => .ok false
  | .clearedWeakCell => .ok true
  | _ => .error .cast

/-- Modelled from the spec: `WeakCell::value()` is declared in `objects.h`,
which is absent; it is the spec's `token.get()`, which yields the object held
and fails on a cleared token. -/
def WeakCell.value : Object → Except Abort Object
  | .weakCell value => .ok value
  | .clearedWeakCell => .error .clearedCell
  | _ => .error .cast

/-- Modelled from the spec: `StoreHandler::GetTransitionCell` is defined in
`ic/handler-configuration-inl.h`, which is absent; it yields the weak token a
handler is bound to. -/
def StoreHandler.GetTransitionCell : Object → Except Abort Object
  | .storeHandler transitionCell => WeakCell.cast transitionCell
  | _ => .error .cast

/-- A `MaybeObject*`: a Smi, or a weak or strong reference to a heap object,
or a weak reference that has been cleared. -/
inductive MaybeObject where
  | smi (value : Int)
  | weak (object : Object)
  | strong (object : Object)
  | clearedWeak

/-- Embeds `MaybeObject::ToStrongHeapObject`. -/
def MaybeObject.ToStrongHeapObject : MaybeObject → Except Abort Object
  | .strong object => .ok object
  | _ => .error .cast

/-- Embeds `MaybeObject::ToWeakHeapObject`. -/
def MaybeObject.ToWeakHeapObject : MaybeObject → Except Abort Object
  | .weak object => .ok object
  | _ => .error .cast

/-! ## The layout of a transition array -/

/-- The layout constants of `TransitionArray`. They are declared in
`transitions.h`, which is absent, so every definition below takes them as a
parameter. -/
structure Layout where
  kPrototypeTransitionsIndex : Int
  kTransitionLengthIndex : Int
  kFirstIndex : Int
  kEntryKeyIndex : Int
  kEntryTargetIndex : Int
  kEntrySize : Int
  deriving DecidableEq, Repr

/-- What the constants have to satisfy to describe a header of two distinct
slots followed by entries of `kEntrySize` slots, a key slot and a target slot
each. -/
def Layout.WellFormed (L : Layout) : Prop :=
  0 ≤ L.kPrototypeTransitionsIndex ∧ L.kPrototypeTransitionsIndex < L.kFirstIndex ∧
  0 ≤ L.kTransitionLengthIndex ∧ L.kTransitionLengthIndex < L.kFirstIndex ∧
  L.kPrototypeTransitionsIndex ≠ L.kTransitionLengthIndex ∧
  0 ≤ L.kEntryKeyIndex ∧ L.kEntryKeyIndex < L.kEntrySize ∧
  0 ≤ L.kEntryTargetIndex ∧ L.kEntryTargetIndex < L.kEntrySize ∧
  L.kEntryKeyIndex ≠ L.kEntryTargetIndex

instance (L : Layout) : Decidable L.WellFormed := by
  unfold Layout.WellFormed
  infer_instance

/-- A layout with a two-slot header and two-slot entries, used for the concrete
instances of the theorems. -/
def Layout.sample : Layout where
  kPrototypeTransitionsIndex := 0
  kTransitionLengthIndex := 1
  kFirstIndex := 2
  kEntryKeyIndex := 0
  kEntryTargetIndex := 1
  kEntrySize := 2

/-- Modelled from the spec: `TransitionArray::ToKeyIndex` is defined in
`transitions.h`, which is absent; entry `transition_number` occupies
`kEntrySize` slots after the fixed header, its key at offset `kEntryKeyIndex`. -/
def ToKeyIndex (L : Layout) (transition_number : Int) : Int :=
  L.kFirstIndex + transition_number * L.kEntrySize + L.kEntryKeyIndex

/-- Modelled from the spec: `TransitionArray::ToTargetIndex` is defined in
`transitions.h`, which is absent; the target of entry `transition_number` is
at offset `kEntryTargetIndex` of the entry. -/
def ToTargetIndex (L : Layout) (transition_number : Int) : Int :=
  L.kFirstIndex + transition_number * L.kEntrySize + L.kEntryTargetIndex

/-! ## The backing `FixedArray` -/

/-- Embeds `FixedArray::length`. -/
def TransitionArray.length (a : TransitionArray) : Int := Int.ofNat (List.length a)

/-- Embeds `FixedArray::get`, with its bounds check. -/
def TransitionArray.get (a : TransitionArray) (index : Int) : Except Abort Object :=
  if 0 ≤ index then
    match a[index.toNat]? with
    | some object => .ok object
    | none => .error .bounds
  else .error .bounds

/-- Embeds `FixedArray::set`, with its bounds check. -/
def TransitionArray.set (a : TransitionArray) (index : Int) (value : Object) :
    Except Abort TransitionArray :=
  if 0 ≤ index ∧ index < a.length then .ok (List.set a index.toNat value)
  else .error .bounds

/-- A transition array in the sample layout with room for two entries, one of
them in use: no prototype transitions, count 1, the key `⟨1⟩` with a live weak
cell as its target, and an unused entry. -/
def TransitionArray.sample : TransitionArray :=
  [Smi.kZero, Smi.FromInt 1, .name ⟨1⟩, .weakCell (.map ⟨10, 0, [⟨⟨1⟩, ⟨.kData, ⟨0⟩⟩⟩]⟩),
    .undefined, .undefined]

/-! ## `TransitionArray` -/

namespace TransitionArray

/-- Modelled from the spec: `TransitionArray::number_of_transitions` is defined
in `transitions.h`, which is absent; it is the spec's `usedCount` header field,
which `SetNumberOfTransitions` stores as a Smi in slot `kTransitionLengthIndex`. -/
def number_of_transitions (L : Layout) (a : TransitionArray) : Except Abort Int := do
  let count ← a.get L.kTransitionLengthIndex
  Smi.ToInt count

/-- Embeds `TransitionArray::HasPrototypeTransitions`. -/
def HasPrototypeTransitions (L : Layout) (a : TransitionArray) : Except Abort Bool := do
  let slot ← a.get L.kPrototypeTransitionsIndex
  pure (!slot.isSmiZero)

/-- Embeds `TransitionArray::GetPrototypeTransitions`. -/
def GetPrototypeTransitions (L : Layout) (a : TransitionArray) : Except Abort Object := do
  let present ← HasPrototypeTransitions L a
  DCHECK present  -- Callers must check first.
  let prototype_transitions ← a.get L.kPrototypeTransitionsIndex
  FixedArray.cast prototype_transitions

/-- Embeds `TransitionArray::SetPrototypeTransitions`. -/
def SetPrototypeTransitions (L : Layout) (a : TransitionArray) (transitions : Object) :
    Except Abort TransitionArray := do
  DCHECK transitions.IsFixedArray
  a.set L.kPrototypeTransitionsIndex transitions

/-- Embeds `TransitionArray::GetKey`. -/
def GetKey (L : Layout) (a : TransitionArray) (transition_number : Int) :
    Except Abort Name := do
  let count ← number_of_transitions L a
  DCHECK (decide (transition_number < count))
  let key ← a.get (ToKeyIndex L transition_number)
  Name.cast key

/-- Embeds `TransitionArray::SetKey`. -/
def SetKey (L : Layout) (a : TransitionArray) (transition_number : Int) (key : Name) :
    Except Abort TransitionArray := do
  let count ← number_of_transitions L a
  DCHECK (decide (transition_number < count))
  a.set (ToKeyIndex L transition_number) (.name key)

/-- Embeds `TransitionArray::GetRawTarget`. -/
def GetRawTarget (L : Layout) (a : TransitionArray) (transition_number : Int) :
    Except Abort Object := do
  let count ← number_of_transitions L a
  DCHECK (decide (transition_number < count))
  a.get (ToTargetIndex L transition_number)

/-- Embeds `TransitionArray::SetTarget`. -/
def SetTarget (L : Layout) (a : TransitionArray) (transition_number : Int) (value : Object) :
    Except Abort TransitionArray := do
  DCHECK (!value.IsMap)
  let count ← number_of_transitions L a
  DCHECK (decide (transition_number < count))
  a.set (ToTargetIndex L transition_number) value

/-- Embeds `TransitionArray::Set`. -/
def Set (L : Layout) (a : TransitionArray) (transition_number : Int) (key : Name)
    (target : Object) : Except Abort TransitionArray := do
  let a ← a.set (ToKeyIndex L transition_number) (.name key)
  a.set (ToTargetIndex L transition_number) target

/-- Embeds `TransitionArray::Capacity`. -/
def Capacity (L : Layout) (a : TransitionArray) : Int :=
  if a.length ≤ L.kFirstIndex then 0
  else (a.length - L.kFirstIndex).tdiv L.kEntrySize

/-- Embeds `TransitionArray::SetNumberOfTransitions`. -/
def SetNumberOfTransitions (L : Layout) (a : TransitionArray)
    (number_of_transitions : Int) : Except Abort TransitionArray := do
  DCHECK (decide (number_of_transitions ≤ Capacity L a))
  a.set L.kTransitionLengthIndex (Smi.FromInt number_of_transitions)

end TransitionArray

/-! ## `TransitionsAccessor` -/

/-- Embeds `TransitionsAccessor::Encoding`. -/
inductive Encoding where
  | kPrototypeInfo
  | kUninitialized
  | kWeakRef
  | kHandler
  | kFullTransitionArray
  deriving DecidableEq, Repr

/-- The fields of a `TransitionsAccessor` that this file reads or writes;
`target_cell_` is `none` for `nullptr`. -/
structure TransitionsAccessor where
  raw_transitions_ : MaybeObject
  encoding_ : Encoding
  target_cell_ : Option Object
  needs_reload_ : Bool

namespace TransitionsAccessor

/-- Embeds `TransitionsAccessor::encoding`. -/
def encoding (acc : TransitionsAccessor) : Encoding := acc.encoding_

/-- Embeds `TransitionsAccessor::GetTargetFromRaw`. -/
def GetTargetFromRaw (raw : Object) : Except Abort Map :=
  if raw.IsWeakCell then do
    let cell ← WeakCell.cast raw
    let value ← WeakCell.value cell
    Map.cast value
  else do
    let cell ← StoreHandler.GetTransitionCell raw
    let value ← WeakCell.value cell
    Map.cast value

/-- Embeds `TransitionsAccessor::GetTargetCell`; the accessor returned carries the
memoized `target_cell_`. -/
def GetTargetCell (acc : TransitionsAccessor) :
    Except Abort (Object × TransitionsAccessor) := do
  DCHECK (!acc.needs_reload_)
  match acc.target_cell_ with
  | none => do
    let handler ← acc.raw_transitions_.ToStrongHeapObject
    let cell ← StoreHandler.GetTransitionCell handler
    pure (cell, { acc with target_cell_ := some cell })
  | some cell => pure (cell, acc)

/-- Embeds `TransitionsAccessor::transitions`. -/
def transitions (acc : TransitionsAccessor) : Except Abort TransitionArray := do
  DCHECK (decide (Encoding.kFullTransitionArray = acc.encoding))
  let object ← acc.raw_transitions_.ToStrongHeapObject
  TransitionArray.cast object

/-- Modelled from the spec: `TransitionsAccessor::GetSimpleTransitionKey` is
defined in `transitions.cc`, which is absent; the key of a single edge is
derived from the target's own last-added descriptor. -/
def GetSimpleTransitionKey (transition : Map) : Except Abort Name :=
  transition.instance_descriptors.GetKey transition.LastAdded

/-- Embeds `TransitionsAccessor::GetTargetDetails`; the predicate `IsSpecialTransition`
is defined in `transitions.cc`, which is absent, and is a parameter. -/
def GetTargetDetails (IsSpecialTransition : Name → Bool) (name : Name) (target : Map) :
    Except Abort PropertyDetails := do
  DCHECK (!IsSpecialTransition name)
  let descriptor := target.LastAdded
  let descriptors := target.instance_descriptors
  -- Transitions are allowed only for the last added property.
  let key ← descriptors.GetKey descriptor
  DCHECK (key.Equals name)
  descriptors.GetDetails descriptor

end TransitionsAccessor

namespace TransitionArray

/-- Embeds `TransitionArray::GetTarget`. -/
def GetTarget (L : Layout) (a : TransitionArray) (transition_number : Int) :
    Except Abort Map := do
  let raw ← GetRawTarget L a transition_number
  TransitionsAccessor.GetTargetFromRaw raw

/-- Embeds `TransitionArray::GetTargetIfExists`. The argument `target` is the content
of `*target` before the call; the result is the value returned and the content
of `*target` after the call. -/
def GetTargetIfExists (L : Layout) (a : TransitionArray) (transition_number : Int)
    (target : Option Map) : Except Abort (Bool × Option Map) := do
  let raw ← GetRawTarget L a transition_number
  if raw.IsUndefined then
    pure (false, target)
  else do
    let map ← TransitionsAccessor.GetTargetFromRaw raw
    pure (true, some map)

end TransitionArray

namespace TransitionsAccessor

/-- Embeds `TransitionsAccessor::GetKey`; the accessor returned carries the memoized
`target_cell_`. -/
def GetKey (L : Layout) (acc : TransitionsAccessor) (transition_number : Int) :
    Except Abort (Name × TransitionsAccessor) :=
  match acc.encoding with
  | .kPrototypeInfo => .error .unreachable
  | .kUninitialized => .error .unreachable
  | .kWeakRef => do
    let object ← acc.raw_transitions_.ToWeakHeapObject
    let map ← Map.cast object
    let key ← GetSimpleTransitionKey map
    pure (key, acc)
  | .kHandler => do
    let (cell, acc) ← acc.GetTargetCell
    let cleared ← WeakCell.cleared cell
    DCHECK (!cleared)
    let value ← WeakCell.value cell
    let map ← Map.cast value
    let key ← GetSimpleTransitionKey map
    pure (key, acc)
  | .kFullTransitionArray => do
    let array ← acc.transitions
    let key ← array.GetKey L transition_number
    pure (key, acc)

/-- Embeds `TransitionsAccessor::GetTarget`; the accessor returned carries the memoized
`target_cell_`. -/
def GetTarget (L : Layout) (acc : TransitionsAccessor) (transition_number : Int) :
    Except Abort (Map × TransitionsAccessor) :=
  match acc.encoding with
  | .kPrototypeInfo => .error .unreachable
  | .kUninitialized => .error .unreachable
  | .kWeakRef => do
    let object ← acc.raw_transitions_.ToWeakHeapObject
    let map ← Map.cast object
    pure (map, acc)
  | .kHandler => do
    let (cell, acc) ← acc.GetTargetCell
    let cleared ← WeakCell.cleared cell
    DCHECK (!cleared)
    let value ← WeakCell.value cell
    let map ← Map.cast value
    pure (map, acc)
  | .kFullTransitionArray => do
    let array ← acc.transitions
    let map ← array.GetTarget L transition_number
    pure (map, acc)

end TransitionsAccessor

/-! ## Sample values for the concrete instances -/

/-- A map whose last-added (and only) descriptor has the key `⟨1⟩`. -/
def Map.sample : Map := ⟨10, 0, [⟨⟨1⟩, ⟨.kData, ⟨0⟩⟩⟩]⟩

/-- An accessor of a map without transitions. -/
def TransitionsAccessor.sampleEmpty : TransitionsAccessor :=
  ⟨.smi 0, .kUninitialized, none, false⟩

/-- An accessor in the encoding `kWeakRef`, its single target being `Map.sample`. -/
def TransitionsAccessor.sampleWeakRef : TransitionsAccessor :=
  ⟨.weak (.map Map.sample), .kWeakRef, none, false⟩

/-- An accessor in the encoding `kHandler`, the handler bound to `Map.sample`,
before the first call of `GetTargetCell`. -/
def TransitionsAccessor.sampleHandler : TransitionsAccessor :=
  ⟨.strong (.storeHandler (.weakCell (.map Map.sample))), .kHandler, none, false⟩

/-- An accessor in the encoding `kFullTransitionArray` over `TransitionArray.sample`. -/
def TransitionsAccessor.sampleFull : TransitionsAccessor :=
  ⟨.strong (.transitionArray TransitionArray.sample), .kFullTransitionArray, none, false⟩

/-- A transition array in the sample layout with one entry in use, whose target
is a weak cell that has been cleared. -/
def TransitionArray.sampleCleared : TransitionArray :=
  [Smi.kZero, Smi.FromInt 1, .name ⟨1⟩, .clearedWeakCell]

/-- A transition array in the sample layout with one entry in use, whose target
is a handler with a cleared transition cell. -/
def TransitionArray.sampleClearedHandler : TransitionArray :=
  [Smi.kZero, Smi.FromInt 1, .name ⟨1⟩, .storeHandler .clearedWeakCell]

/-- A transition array in the sample layout with one entry in use, whose target
slot holds `undefined`. -/
def TransitionArray.sampleUndefined : TransitionArray :=
  [Smi.kZero, Smi.FromInt 1, .name ⟨1⟩, .undefined]

/-! ## Searching the name-sorted region -/

/-- Modelled from the spec: `TransitionArray::kNotFound` is declared in
`transitions.h`, which is absent; it is the result that is no index, the spec's
`notFound`. -/
def TransitionArray.kNotFound : Int := -1

/-- Modelled from the spec: `TransitionArray::number_of_entries` is defined in
`transitions.h`, which is absent; the name-sorted region holds the `usedCount`
edges of the array. -/
def TransitionArray.number_of_entries (L : Layout) (a : TransitionArray) :
    Except Abort Int :=
  TransitionArray.number_of_transitions L a

/-- Modelled from the spec: `internal::Search<ALL_ENTRIES>` is defined in
`objects-inl.h`, which is absent; this is the halving loop of the spec's binary
search, on the primary sort key, the hash of the name: it narrows `low..high` to
the first entry whose hash is not below `hash`. The first argument bounds the
number of iterations. -/
def BinarySearchLoop (Hash : Name → Nat) (L : Layout) (a : TransitionArray) (hash : Nat) :
    Nat → Int → Int → Except Abort Int
  | 0, low, high => if low = high then .ok low else .error .fuel
  | fuel + 1, low, high =>
    if low = high then .ok low
    else do
      let mid := low + (high - low).tdiv 2
      let mid_name ← a.GetKey L mid
      if hash ≤ Hash mid_name then BinarySearchLoop Hash L a hash fuel low mid
      else BinarySearchLoop Hash L a hash fuel (mid + 1) high

/-- Modelled from the spec: `internal::Search<ALL_ENTRIES>` is defined in
`objects-inl.h`, which is absent; this is the walk over the entries whose hash
is `hash`, from `low` to the last entry, `remaining` entries in all: an entry
identical to `name` is found, the first entry of another hash (or the end)
gives the insertion index. The out-parameter is passed in and returned. -/
def BinarySearchScan (Hash : Name → Nat) (L : Layout) (a : TransitionArray) (name : Name)
    (hash : Nat) (out_insertion_index : Option Int) :
    Nat → Int → Except Abort (Int × Option Int)
  | 0, low => .ok (TransitionArray.kNotFound, some low)
  | remaining + 1, low => do
    let entry ← a.GetKey L low
    let current_hash := Hash entry
    if current_hash ≠ hash then
      .ok (TransitionArray.kNotFound, some (low + (if hash < current_hash then 0 else 1)))
    else if entry = name then .ok (low, out_insertion_index)
    else BinarySearchScan Hash L a name hash out_insertion_index remaining (low + 1)

/-- Modelled from the spec: `internal::Search<ALL_ENTRIES>` is defined in
`objects-inl.h`, which is absent; the spec's `search(name)`, a binary search
restricted to the name-sorted region, answering `found(index)` or
`notFound(insertionIndex)`. `Hash` gives the hash of a name. -/
def Search (Hash : Name → Nat) (L : Layout) (a : TransitionArray) (name : Name)
    (valid_entries : Int) (out_insertion_index : Option Int) :
    Except Abort (Int × Option Int) :=
  if valid_entries = 0 then .ok (TransitionArray.kNotFound, some 0)
  else do
    let limit := valid_entries - 1
    DCHECK (decide (0 ≤ limit))
    let low ← BinarySearchLoop Hash L a (Hash name) valid_entries.toNat 0 limit
    BinarySearchScan Hash L a name (Hash name) out_insertion_index
      (limit - low + 1).toNat low

/-- Embeds `TransitionArray::SearchName`; the predicate `IsUniqueName` and the
hash of a name are declared in `objects.h`, which is absent, and are parameters.
The argument `out_insertion_index` is the content of `*out_insertion_index`
before the call; the result is the value returned and the content after the
call. -/
def TransitionArray.SearchName (IsUniqueName : Name → Bool) (Hash : Name → Nat) (L : Layout)
    (a : TransitionArray) (name : Name) (out_insertion_index : Option Int) :
    Except Abort (Int × Option Int) := do
  DCHECK (IsUniqueName name)
  let entries ← TransitionArray.number_of_entries L a
  Search Hash L a name entries out_insertion_index

/-- The first index, among `count` entries from `index` on, whose key is
identical to `name`: one half of the linear scan `SearchName` is compared with. -/
def LinearScanFind (L : Layout) (a : TransitionArray) (name : Name) :
    Nat → Int → Except Abort (Option Int)
  | 0, _ => .ok none
  | count + 1, index => do
    let key ← a.GetKey L index
    if key = name then .ok (some index)
    else LinearScanFind L a name count (index + 1)

/-- The first index, among `count` entries from `index` on, whose key has a
hash above that of `name`, or the end of the region: the position at which
`name` is inserted to keep the region sorted. -/
def LinearScanInsertion (Hash : Name → Nat) (L : Layout) (a : TransitionArray) (name : Name) :
    Nat → Int → Except Abort Int
  | 0, index => .ok index
  | count + 1, index => do
    let key ← a.GetKey L index
    if Hash name < Hash key then .ok index
    else LinearScanInsertion Hash L a name count (index + 1)

/-- The linear scan over the first `number_of_entries()` keys that `SearchName`
is compared with: the index of the first key identical to `name`, or not-found
with the insertion index. -/
def LinearSearchName (Hash : Name → Nat) (L : Layout) (a : TransitionArray) (name : Name)
    (out_insertion_index : Option Int) : Except Abort (Int × Option Int) := do
  let entries ← TransitionArray.number_of_entries L a
  let found ← LinearScanFind L a name entries.toNat 0
  match found with
  | some index => .ok (index, out_insertion_index)
  | none => do
    let insertion ← LinearScanInsertion Hash L a name entries.toNat 0
    .ok (TransitionArray.kNotFound, some insertion)

/-- The answer a search for `name` over the keys `g 0, ..., g (n - 1)` has to
give: the first index whose key is identical to `name`, the out-parameter left
as it was; or, when no key is identical to `name`, not-found and the insertion
index `p`, the keys before `p` having hashes up to that of `name` and the keys
from `p` on greater hashes. -/
def SearchAnswer (Hash : Name → Nat) (g : Nat → Name) (n : Nat) (name : Name)
    (out_insertion_index : Option Int) (result : Int × Option Int) : Prop :=
  (∃ p : Nat, p < n ∧ result = ((p : Int), out_insertion_index) ∧ g p = name ∧
    ∀ j, j < p → g j ≠ name) ∨
  (∃ p : Nat, p ≤ n ∧ result = (TransitionArray.kNotFound, some (p : Int)) ∧
    (∀ j, j < n → g j ≠ name) ∧ (∀ j, j < p → Hash (g j) ≤ Hash name) ∧
    (∀ j, p ≤ j → j < n → Hash name < Hash (g j)))

/-- A transition array in the sample layout with three entries in use, sorted:
the names `⟨1⟩`, `⟨2⟩`, `⟨3⟩`, whose hashes are taken to be their addresses. -/
def TransitionArray.sampleSorted : TransitionArray :=
  [Smi.kZero, Smi.FromInt 3, .name ⟨1⟩, .undefined, .name ⟨2⟩, .undefined,
    .name ⟨3⟩, .undefined]

/-- The keys of `TransitionArray.sampleSorted`. -/
def Key.sampleSorted : List Key :=
  [⟨⟨1⟩, 1, .kData, ⟨0⟩⟩, ⟨⟨2⟩, 2, .kData, ⟨0⟩⟩, ⟨⟨3⟩, 3, .kData, ⟨0⟩⟩]

/-! ## Theorems: the key comparator -/

theorem CompareNames_eq_zero_iff (key1 : Name) (hash1 : Nat) (key2 : Name) (hash2 : Nat) :
    CompareNames key1 hash1 key2 hash2 = 0 ↔ key1 = key2 := by
  unfold CompareNames
  split_ifs <;> simp_all

theorem CompareDetails_eq_zero_iff (kind1 : PropertyKind) (attributes1 : PropertyAttributes)
    (kind2 : PropertyKind) (attributes2 : PropertyAttributes) :
    CompareDetails kind1 attributes1 kind2 attributes2 = 0 ↔
      kind1 = kind2 ∧ attributes1 = attributes2 := by
  unfold CompareDetails
  split_ifs <;> simp_all

theorem PropertyKind.kind_toInt_injective (kind1 kind2 : PropertyKind)
    (h : kind1.toInt = kind2.toInt) : kind1 = kind2 := by
  cases kind1 <;> cases kind2 <;> simp_all [PropertyKind.toInt]

theorem PropertyAttributes.attributes_toInt_injective (attributes1 attributes2 : PropertyAttributes)
    (h : attributes1.toInt = attributes2.toInt) : attributes1 = attributes2 := by
  cases attributes1; cases attributes2
  simp_all [PropertyAttributes.toInt]

/-- C1: `CompareKeys` returns 0 if and only if the two names are identical and
the kinds and the attributes are equal, whatever the two hash values are. -/
theorem CompareKeys_eq_zero_iff (name1 : Name) (hash1 : Nat) (kind1 : PropertyKind)
    (attributes1 : PropertyAttributes) (name2 : Name) (hash2 : Nat)
    (kind2 : PropertyKind) (attributes2 : PropertyAttributes) :
    CompareKeys name1 hash1 kind1 attributes1 name2 hash2 kind2 attributes2 = 0 ↔
      name1 = name2 ∧ kind1 = kind2 ∧ attributes1 = attributes2 := by
  have hnames := CompareNames_eq_zero_iff name1 hash1 name2 hash2
  have hdetails := CompareDetails_eq_zero_iff kind1 attributes1 kind2 attributes2
  unfold CompareKeys
  by_cases h0 : CompareNames name1 hash1 name2 hash2 = 0
  · rw [if_neg (not_not.mpr h0), hdetails]
    exact ⟨fun h => ⟨hnames.mp h0, h⟩, fun h => h.2⟩
  · rw [if_pos h0]
    exact ⟨fun h => absurd h h0, fun h => absurd (hnames.mpr h.1) h0⟩

theorem CompareDetails_antisymm (kind1 : PropertyKind) (attributes1 : PropertyAttributes)
    (kind2 : PropertyKind) (attributes2 : PropertyAttributes) :
    CompareDetails kind1 attributes1 kind2 attributes2 =
      - CompareDetails kind2 attributes2 kind1 attributes1 := by
  unfold CompareDetails
  by_cases hk : kind1 = kind2
  · subst hk
    by_cases ha : attributes1 = attributes2
    · subst ha
      simp
    · have ha2 : attributes2 ≠ attributes1 := Ne.symm ha
      have hne : attributes1.toInt ≠ attributes2.toInt := fun h =>
        ha (PropertyAttributes.attributes_toInt_injective _ _ h)
      simp only [ne_eq, not_true_eq_false, if_false, ha, ha2, not_false_eq_true, if_true]
      split_ifs <;> omega
  · have hk2 : kind2 ≠ kind1 := Ne.symm hk
    have hne : kind1.toInt ≠ kind2.toInt := fun h => hk (PropertyKind.kind_toInt_injective _ _ h)
    simp only [ne_eq, hk, hk2, not_false_eq_true, if_true]
    split_ifs <;> omega

/-- When the names are identical `CompareKeys` is `CompareDetails`. -/
theorem CompareKeys_same_name (name : Name) (hash1 : Nat) (kind1 : PropertyKind)
    (attributes1 : PropertyAttributes) (hash2 : Nat) (kind2 : PropertyKind)
    (attributes2 : PropertyAttributes) :
    CompareKeys name hash1 kind1 attributes1 name hash2 kind2 attributes2 =
      CompareDetails kind1 attributes1 kind2 attributes2 := by
  simp [CompareKeys, CompareNames]

/-- When the names differ `CompareKeys` is decided by the hashes alone. -/
theorem CompareKeys_other_name (name1 : Name) (hash1 : Nat) (kind1 : PropertyKind)
    (attributes1 : PropertyAttributes) (name2 : Name) (hash2 : Nat) (kind2 : PropertyKind)
    (attributes2 : PropertyAttributes) (h : name1 ≠ name2) :
    CompareKeys name1 hash1 kind1 attributes1 name2 hash2 kind2 attributes2 =
      if hash1 ≤ hash2 then -1 else 1 := by
  unfold CompareKeys CompareNames
  simp only [ne_eq, h, not_false_eq_true, if_true]
  split_ifs <;> simp_all

/-- The comparator on the sign of `CompareDetails`. -/
theorem CompareDetails_neg_iff (kind1 : PropertyKind) (attributes1 : PropertyAttributes)
    (kind2 : PropertyKind) (attributes2 : PropertyAttributes) :
    CompareDetails kind1 attributes1 kind2 attributes2 < 0 ↔
      kind1.toInt < kind2.toInt ∨
        (kind1.toInt = kind2.toInt ∧ attributes1.toInt < attributes2.toInt) := by
  unfold CompareDetails
  by_cases hk : kind1 = kind2
  · subst hk
    by_cases ha : attributes1 = attributes2
    · subst ha
      simp
    · simp only [ne_eq, not_true_eq_false, if_false, ha, not_false_eq_true, if_true]
      split_ifs <;> simp_all
  · have hne : kind1.toInt ≠ kind2.toInt := fun h => hk (PropertyKind.kind_toInt_injective _ _ h)
    simp only [ne_eq, hk, not_false_eq_true, if_true]
    split_ifs <;> simp_all

/-- The sign of the comparator when hashes identify names: it is the
lexicographic order on hash, kind and attributes. -/
theorem Key.compare_neg_iff (a b : Key) (hfun : HashOfName a b) (hcol : NoCollision a b) :
    a.compare b < 0 ↔
      a.hash < b.hash ∨ (a.hash = b.hash ∧ (a.kind.toInt < b.kind.toInt ∨
        (a.kind.toInt = b.kind.toInt ∧ a.attributes.toInt < b.attributes.toInt))) := by
  unfold Key.compare
  by_cases hn : a.name = b.name
  · have hh : a.hash = b.hash := hfun hn
    rw [hn, CompareKeys_same_name, CompareDetails_neg_iff]
    constructor
    · intro h
      exact Or.inr ⟨hh, h⟩
    · rintro (h | ⟨_, h⟩)
      · omega
      · exact h
  · have hh : a.hash ≠ b.hash := hcol hn
    rw [CompareKeys_other_name _ _ _ _ _ _ _ _ hn]
    split_ifs with hle
    · constructor
      · intro _
        exact Or.inl (by omega)
      · intro _
        decide
    · constructor
      · intro h
        exact absurd h (by decide)
      · rintro (h | ⟨h, _⟩) <;> omega

/-- C2 (as stated, refuted): two keys with different names and the same hash are
each less than the other, so `CompareKeys(a, b) = -CompareKeys(b, a)` fails and
it is not the case that exactly one of `a < b`, `b < a` holds. -/
theorem CompareKeys_antisymm_counterexample :
    HashOfName Key.collisionA Key.collisionB ∧
    (∃ hash : Name → Nat, Key.collisionA.hash = hash Key.collisionA.name ∧
      Key.collisionB.hash = hash Key.collisionB.name) ∧
    Key.Distinct Key.collisionA Key.collisionB ∧
    Key.collisionA.compare Key.collisionB = -1 ∧
    Key.collisionB.compare Key.collisionA = -1 ∧
    Key.collisionA.compare Key.collisionB ≠ - Key.collisionB.compare Key.collisionA ∧
    ¬ (∀ a b : Key, HashOfName a b → a.compare b = - b.compare a) := by
  have hfun : HashOfName Key.collisionA Key.collisionB := fun _ => rfl
  have hab : Key.collisionA.compare Key.collisionB = -1 := by decide
  have hba : Key.collisionB.compare Key.collisionA = -1 := by decide
  have hne : Key.collisionA.compare Key.collisionB ≠ - Key.collisionB.compare Key.collisionA := by
    rw [hab, hba]
    decide
  exact ⟨hfun, ⟨fun _ => 7, rfl, rfl⟩, Or.inl (by decide), hab, hba, hne,
    fun h => hne (h _ _ hfun)⟩

/-- C2 (amended): for two keys whose names are identical or whose hashes differ,
`CompareKeys(a, b) = -CompareKeys(b, a)`, and when the keys are distinct as
`(name, kind, attributes)` triples exactly one of `a < b` and `b < a` holds. -/
theorem CompareKeys_antisymm (a b : Key) (hcol : NoCollision a b) :
    a.compare b = - b.compare a ∧
    (Key.Distinct a b →
      (a.compare b < 0 ∧ ¬ b.compare a < 0) ∨ (b.compare a < 0 ∧ ¬ a.compare b < 0)) := by
  have hanti : a.compare b = - b.compare a := by
    unfold Key.compare
    by_cases hn : a.name = b.name
    · rw [hn, CompareKeys_same_name, CompareKeys_same_name]
      exact CompareDetails_antisymm _ _ _ _
    · have hh : a.hash ≠ b.hash := hcol hn
      rw [CompareKeys_other_name _ _ _ _ _ _ _ _ hn,
        CompareKeys_other_name _ _ _ _ _ _ _ _ (Ne.symm hn)]
      split_ifs <;> omega
  refine ⟨hanti, fun hd => ?_⟩
  have hne : a.compare b ≠ 0 := by
    unfold Key.compare
    by_cases hn : a.name = b.name
    · rw [hn, CompareKeys_same_name]
      intro h0
      have hdetails := (CompareDetails_eq_zero_iff _ _ _ _).mp h0
      rcases hd with h | h | h
      · exact h hn
      · exact h hdetails.1
      · exact h hdetails.2
    · rw [CompareKeys_other_name _ _ _ _ _ _ _ _ hn]
      split_ifs <;> decide
  omega

/-- C2 (amended), at two keys with the same name and different kinds. -/
theorem CompareKeys_antisymm_witness :
    NoCollision Key.collisionA Key.collisionC ∧
    Key.collisionA.compare Key.collisionC = - Key.collisionC.compare Key.collisionA ∧
    (Key.Distinct Key.collisionA Key.collisionC →
      (Key.collisionA.compare Key.collisionC < 0 ∧ ¬ Key.collisionC.compare Key.collisionA < 0) ∨
      (Key.collisionC.compare Key.collisionA < 0 ∧ ¬ Key.collisionA.compare Key.collisionC < 0)) :=
  ⟨fun h => absurd rfl h, CompareKeys_antisymm Key.collisionA Key.collisionC (fun h => absurd rfl h)⟩

/-- C3 (as stated, refuted): with a hash collision the comparator has a cycle:
`a < b` and `b < c` while `c < a`, for keys whose hash is a function of the name. -/
theorem CompareKeys_trans_counterexample :
    HashOfName Key.collisionA Key.collisionB ∧
    HashOfName Key.collisionB Key.collisionC ∧
    HashOfName Key.collisionA Key.collisionC ∧
    (∃ hash : Name → Nat, Key.collisionA.hash = hash Key.collisionA.name ∧
      Key.collisionB.hash = hash Key.collisionB.name ∧
      Key.collisionC.hash = hash Key.collisionC.name) ∧
    Key.collisionA.compare Key.collisionB < 0 ∧
    Key.collisionB.compare Key.collisionC < 0 ∧
    ¬ Key.collisionA.compare Key.collisionC < 0 ∧
    Key.collisionC.compare Key.collisionA < 0 := by
  refine ⟨fun _ => rfl, fun _ => rfl, fun _ => rfl, ⟨fun _ => 7, rfl, rfl, rfl⟩,
    ?_, ?_, ?_, ?_⟩ <;> decide

/-- C3 (amended): for three keys whose hash is a function of the name and among
which different names have different hashes, `CompareKeys(a, b) < 0` and
`CompareKeys(b, c) < 0` imply `CompareKeys(a, c) < 0`. -/
theorem CompareKeys_trans (a b c : Key)
    (hfab : HashOfName a b) (hfbc : HashOfName b c) (hfac : HashOfName a c)
    (hcab : NoCollision a b) (hcbc : NoCollision b c) (hcac : NoCollision a c)
    (hab : a.compare b < 0) (hbc : b.compare c < 0) : a.compare c < 0 := by
  rw [Key.compare_neg_iff a b hfab hcab] at hab
  rw [Key.compare_neg_iff b c hfbc hcbc] at hbc
  rw [Key.compare_neg_iff a c hfac hcac]
  omega

/-- C3 (amended), at three keys in ascending order. -/
theorem CompareKeys_trans_witness :
    Key.orderedA.compare Key.orderedB < 0 ∧ Key.orderedB.compare Key.orderedC < 0 ∧
    Key.orderedA.compare Key.orderedC < 0 :=
  ⟨by decide, by decide,
    CompareKeys_trans Key.orderedA Key.orderedB Key.orderedC (by decide) (by decide)
      (by decide) (by decide) (by decide) (by decide) (by decide) (by decide)⟩

/-- With transitivity, a list of keys free of collisions whose adjacent entries
are strictly ordered is strictly ordered as a whole. -/
theorem Key.lt_of_chain (l : List Key) (a : Key)
    (hkeys : ∀ x ∈ a :: l, ∀ y ∈ a :: l, HashOfName x y ∧ NoCollision x y)
    (hchain : List.Chain (fun x y => x.compare y < 0) a l) :
    ∀ y ∈ l, a.compare y < 0 := by
  induction l generalizing a with
  | nil => intro y hy; cases hy
  | cons z zs ih =>
    rw [List.chain_cons] at hchain
    intro y hy
    rcases List.mem_cons.mp hy with rfl | hmem
    · exact hchain.1
    · have hzs : ∀ x ∈ z :: zs, ∀ w ∈ z :: zs, HashOfName x w ∧ NoCollision x w :=
        fun x hx w hw => hkeys x (List.mem_cons_of_mem _ hx) w (List.mem_cons_of_mem _ hw)
      have hzy : z.compare y < 0 := ih z hzs hchain.2 y hmem
      have ha : a ∈ a :: z :: zs := List.mem_cons_self _ _
      have hz : z ∈ a :: z :: zs := List.mem_cons_of_mem _ (List.mem_cons_self _ _)
      have hy2 : y ∈ a :: z :: zs := List.mem_cons_of_mem _ hy
      have haz := hchain.1
      rw [Key.compare_neg_iff a z (hkeys a ha z hz).1 (hkeys a ha z hz).2] at haz
      rw [Key.compare_neg_iff z y (hkeys z hz y hy2).1 (hkeys z hz y hy2).2] at hzy
      rw [Key.compare_neg_iff a y (hkeys a ha y hy2).1 (hkeys a ha y hy2).2]
      omega

theorem Key.pairwise_of_chain (l : List Key)
    (hkeys : ∀ x ∈ l, ∀ y ∈ l, HashOfName x y ∧ NoCollision x y)
    (hchain : List.Chain' (fun x y => x.compare y < 0) l) :
    List.Pairwise (fun x y => x.compare y < 0) l := by
  induction l with
  | nil => exact List.Pairwise.nil
  | cons a l ih =>
    have htail : ∀ x ∈ l, ∀ y ∈ l, HashOfName x y ∧ NoCollision x y :=
      fun x hx y hy => hkeys x (List.mem_cons_of_mem _ hx) y (List.mem_cons_of_mem _ hy)
    exact List.Pairwise.cons (Key.lt_of_chain l a hkeys hchain) (ih htail hchain.tail)

/-- C4: `CompareKeys` returns -1, 0 or 1; for different names with different
hashes it is -1 when `hash1 < hash2` and 1 when `hash1 > hash2`, whatever the
kinds and attributes; for identical names it is decided by the kind (smaller
first, data before accessor) and, for equal kinds, by the attributes as integers
(smaller first). -/
theorem CompareKeys_ordering :
    (∀ name1 hash1 kind1 attributes1 name2 hash2 kind2 attributes2,
      CompareKeys name1 hash1 kind1 attributes1 name2 hash2 kind2 attributes2 = -1 ∨
      CompareKeys name1 hash1 kind1 attributes1 name2 hash2 kind2 attributes2 = 0 ∨
      CompareKeys name1 hash1 kind1 attributes1 name2 hash2 kind2 attributes2 = 1) ∧
    (∀ name1 hash1 kind1 attributes1 name2 hash2 kind2 attributes2,
      name1 ≠ name2 → hash1 < hash2 →
      CompareKeys name1 hash1 kind1 attributes1 name2 hash2 kind2 attributes2 = -1) ∧
    (∀ name1 hash1 kind1 attributes1 name2 hash2 kind2 attributes2,
      name1 ≠ name2 → hash2 < hash1 →
      CompareKeys name1 hash1 kind1 attributes1 name2 hash2 kind2 attributes2 = 1) ∧
    (∀ name hash1 kind1 attributes1 hash2 kind2 attributes2,
      kind1.toInt < kind2.toInt →
      CompareKeys name hash1 kind1 attributes1 name hash2 kind2 attributes2 = -1) ∧
    (∀ name hash1 kind1 attributes1 hash2 kind2 attributes2,
      kind2.toInt < kind1.toInt →
      CompareKeys name hash1 kind1 attributes1 name hash2 kind2 attributes2 = 1) ∧
    (∀ name hash1 attributes1 hash2 attributes2,
      CompareKeys name hash1 .kData attributes1 name hash2 .kAccessor attributes2 = -1) ∧
    (∀ name hash1 kind attributes1 hash2 attributes2,
      attributes1.toInt < attributes2.toInt →
      CompareKeys name hash1 kind attributes1 name hash2 kind attributes2 = -1) ∧
    (∀ name hash1 kind attributes1 hash2 attributes2,
      attributes2.toInt < attributes1.toInt →
      CompareKeys name hash1 kind attributes1 name hash2 kind attributes2 = 1) ∧
    (∀ name hash1 kind attributes hash2,
      CompareKeys name hash1 kind attributes name hash2 kind attributes = 0) := by
  refine ⟨?_, ?_, ?_, ?_, ?_, ?_, ?_, ?_, ?_⟩
  · intro name1 hash1 kind1 attributes1 name2 hash2 kind2 attributes2
    unfold CompareKeys CompareNames CompareDetails
    split_ifs <;> simp_all
  · intro name1 hash1 kind1 attributes1 name2 hash2 kind2 attributes2 hn hlt
    rw [CompareKeys_other_name _ _ _ _ _ _ _ _ hn, if_pos (Nat.le_of_lt hlt)]
  · intro name1 hash1 kind1 attributes1 name2 hash2 kind2 attributes2 hn hlt
    rw [CompareKeys_other_name _ _ _ _ _ _ _ _ hn, if_neg (Nat.not_le_of_lt hlt)]
  · intro name hash1 kind1 attributes1 hash2 kind2 attributes2 hlt
    have hk : kind1 ≠ kind2 := fun h => by subst h; omega
    rw [CompareKeys_same_name]
    simp [CompareDetails, hk, hlt]
  · intro name hash1 kind1 attributes1 hash2 kind2 attributes2 hlt
    have hk : kind1 ≠ kind2 := fun h => by subst h; omega
    have hnlt : ¬ kind1.toInt < kind2.toInt := by omega
    rw [CompareKeys_same_name]
    simp [CompareDetails, hk, hnlt]
  · intro name hash1 attributes1 hash2 attributes2
    rw [CompareKeys_same_name]
    simp [CompareDetails, PropertyKind.toInt]
  · intro name hash1 kind attributes1 hash2 attributes2 hlt
    have ha : attributes1 ≠ attributes2 := fun h => by subst h; omega
    rw [CompareKeys_same_name]
    simp [CompareDetails, ha, hlt]
  · intro name hash1 kind attributes1 hash2 attributes2 hlt
    have ha : attributes1 ≠ attributes2 := fun h => by subst h; omega
    have hnlt : ¬ attributes1.toInt < attributes2.toInt := by omega
    rw [CompareKeys_same_name]
    simp [CompareDetails, ha, hnlt]
  · intro name hash1 kind attributes hash2
    rw [CompareKeys_same_name]
    simp [CompareDetails]

/-- C4, at concrete keys: one instance of each clause that has a premise. -/
theorem CompareKeys_ordering_witness :
    CompareKeys ⟨1⟩ 3 .kAccessor ⟨5⟩ ⟨2⟩ 9 .kData ⟨0⟩ = -1 ∧
    CompareKeys ⟨2⟩ 9 .kData ⟨0⟩ ⟨1⟩ 3 .kAccessor ⟨5⟩ = 1 ∧
    CompareKeys ⟨1⟩ 3 .kData ⟨5⟩ ⟨1⟩ 3 .kAccessor ⟨0⟩ = -1 ∧
    CompareKeys ⟨1⟩ 3 .kAccessor ⟨0⟩ ⟨1⟩ 3 .kData ⟨5⟩ = 1 ∧
    CompareKeys ⟨1⟩ 3 .kData ⟨2⟩ ⟨1⟩ 3 .kData ⟨4⟩ = -1 ∧
    CompareKeys ⟨1⟩ 3 .kData ⟨4⟩ ⟨1⟩ 3 .kData ⟨2⟩ = 1 :=
  ⟨CompareKeys_ordering.2.1 ⟨1⟩ 3 .kAccessor ⟨5⟩ ⟨2⟩ 9 .kData ⟨0⟩ (by decide) (by decide),
   CompareKeys_ordering.2.2.1 ⟨2⟩ 9 .kData ⟨0⟩ ⟨1⟩ 3 .kAccessor ⟨5⟩ (by decide) (by decide),
   CompareKeys_ordering.2.2.2.1 ⟨1⟩ 3 .kData ⟨5⟩ 3 .kAccessor ⟨0⟩ (by decide),
   CompareKeys_ordering.2.2.2.2.1 ⟨1⟩ 3 .kAccessor ⟨0⟩ 3 .kData ⟨5⟩ (by decide),
   CompareKeys_ordering.2.2.2.2.2.2.1 ⟨1⟩ 3 .kData ⟨2⟩ 3 ⟨4⟩ (by decide),
   CompareKeys_ordering.2.2.2.2.2.2.2.1 ⟨1⟩ 3 .kData ⟨4⟩ 3 ⟨2⟩ (by decide)⟩

/-! ## Theorems: the backing array -/

theorem TransitionArray.length_nonneg (a : TransitionArray) : 0 ≤ a.length :=
  Int.ofNat_nonneg _

theorem TransitionArray.get_of_lt (a : TransitionArray) (index : Int) (h0 : 0 ≤ index)
    (hlt : index < a.length) : ∃ object, a.get index = .ok object := by
  have hn : index.toNat < List.length a := by
    have : index < ((List.length a : Nat) : Int) := hlt
    omega
  refine ⟨a[index.toNat], ?_⟩
  simp [TransitionArray.get, h0, List.getElem?_eq_getElem hn]

theorem TransitionArray.set_of_lt (a : TransitionArray) (index : Int) (value : Object)
    (h0 : 0 ≤ index) (hlt : index < a.length) :
    a.set index value = .ok (List.set a index.toNat value) := by
  simp [TransitionArray.set, h0, hlt]

theorem TransitionArray.length_set (a : TransitionArray) (n : Nat) (value : Object) :
    TransitionArray.length (List.set a n value) = a.length := by
  simp [TransitionArray.length]

theorem TransitionArray.get_set_self (a : TransitionArray) (index : Int) (value : Object)
    (h0 : 0 ≤ index) (hlt : index < a.length) :
    TransitionArray.get (List.set a index.toNat value) index = .ok value := by
  have hn : index.toNat < List.length a := by
    have : index < ((List.length a : Nat) : Int) := hlt
    omega
  simp [TransitionArray.get, h0, List.getElem?_set_self hn]

theorem TransitionArray.get_set_ne (a : TransitionArray) (index other : Int) (value : Object)
    (h0 : 0 ≤ index) (hne : other ≠ index) :
    TransitionArray.get (List.set a index.toNat value) other = a.get other := by
  unfold TransitionArray.get
  by_cases ho : 0 ≤ other
  · have hn : index.toNat ≠ other.toNat := by omega
    simp only [ho, if_true, List.getElem?_set_ne hn]
  · simp only [ho, if_false]

/-! ## Theorems: capacity and the transition count -/

theorem TransitionArray.Capacity_eq_ediv (L : Layout) (a : TransitionArray)
    (hsize : 0 < L.kEntrySize) (hlen : L.kFirstIndex ≤ a.length) :
    TransitionArray.Capacity L a = (a.length - L.kFirstIndex) / L.kEntrySize := by
  unfold TransitionArray.Capacity
  split_ifs with h
  · have : a.length - L.kFirstIndex = 0 := by omega
    rw [this, Int.zero_ediv]
  · exact Int.tdiv_eq_ediv (by omega) (le_of_lt hsize)

/-- C5: `Capacity()` is 0 when `length() <= kFirstIndex` and otherwise the floor
of `(length() - kFirstIndex) / kEntrySize`; for `length() >= kFirstIndex` it is
the largest `n >= 0` with `kFirstIndex + n * kEntrySize <= length()`, and the key
slot and the target slot of every entry below `Capacity()` lie inside the
backing array. -/
theorem Capacity_spec (L : Layout) (a : TransitionArray) (hL : L.WellFormed) :
    (a.length ≤ L.kFirstIndex → TransitionArray.Capacity L a = 0) ∧
    (L.kFirstIndex < a.length →
      TransitionArray.Capacity L a = (a.length - L.kFirstIndex).fdiv L.kEntrySize) ∧
    (L.kFirstIndex ≤ a.length →
      0 ≤ TransitionArray.Capacity L a ∧
      L.kFirstIndex + TransitionArray.Capacity L a * L.kEntrySize ≤ a.length ∧
      ∀ n : Int, 0 ≤ n → L.kFirstIndex + n * L.kEntrySize ≤ a.length →
        n ≤ TransitionArray.Capacity L a) ∧
    (∀ i : Int, 0 ≤ i → i < TransitionArray.Capacity L a →
      (0 ≤ ToKeyIndex L i ∧ ToKeyIndex L i < a.length) ∧
      (0 ≤ ToTargetIndex L i ∧ ToTargetIndex L i < a.length)) := by
  obtain ⟨hp0, hp1, ht0, ht1, hpt, hk0, hk1, hg0, hg1, hkg⟩ := hL
  have hsize : 0 < L.kEntrySize := by omega
  refine ⟨?_, ?_, ?_, ?_⟩
  · intro h
    simp [TransitionArray.Capacity, h]
  · intro h
    rw [TransitionArray.Capacity_eq_ediv L a hsize (le_of_lt h),
      Int.fdiv_eq_ediv _ (le_of_lt hsize)]
  · intro h
    rw [TransitionArray.Capacity_eq_ediv L a hsize h]
    refine ⟨Int.ediv_nonneg (by omega) (le_of_lt hsize), ?_, ?_⟩
    · have := Int.ediv_mul_le (a.length - L.kFirstIndex) (ne_of_gt hsize)
      linarith
    · intro n _ hn
      exact (Int.le_ediv_iff_mul_le hsize).mpr (by linarith)
  · intro i hi hcap
    have hlen : L.kFirstIndex < a.length := by
      by_contra hcon
      have : TransitionArray.Capacity L a = 0 := by
        simp [TransitionArray.Capacity, not_lt.mp hcon]
      omega
    rw [TransitionArray.Capacity_eq_ediv L a hsize (le_of_lt hlen)] at hcap
    have hle := Int.ediv_mul_le (a.length - L.kFirstIndex) (ne_of_gt hsize)
    have hstep : (i + 1) * L.kEntrySize ≤
        (a.length - L.kFirstIndex) / L.kEntrySize * L.kEntrySize :=
      Int.mul_le_mul_of_nonneg_right (by omega) (le_of_lt hsize)
    have hprod : 0 ≤ i * L.kEntrySize := Int.mul_nonneg hi (le_of_lt hsize)
    have hexp : (i + 1) * L.kEntrySize = i * L.kEntrySize + L.kEntrySize := by ring
    unfold ToKeyIndex ToTargetIndex
    refine ⟨⟨by linarith, by linarith⟩, ⟨by linarith, by linarith⟩⟩

/-- C5, at the sample layout and an array of six slots: the capacity is 2 and
the slots of entry 1 are inside the array. -/
theorem Capacity_spec_witness :
    Layout.sample.WellFormed ∧
    (∀ i : Int, 0 ≤ i → i < TransitionArray.Capacity Layout.sample TransitionArray.sample →
      (0 ≤ ToKeyIndex Layout.sample i ∧
        ToKeyIndex Layout.sample i < TransitionArray.sample.length) ∧
      (0 ≤ ToTargetIndex Layout.sample i ∧
        ToTargetIndex Layout.sample i < TransitionArray.sample.length)) :=
  ⟨by decide, (Capacity_spec Layout.sample TransitionArray.sample (by decide)).2.2.2⟩

theorem TransitionArray.Capacity_set (L : Layout) (a : TransitionArray) (n : Nat)
    (value : Object) :
    TransitionArray.Capacity L (List.set a n value) = TransitionArray.Capacity L a := by
  unfold TransitionArray.Capacity
  rw [TransitionArray.length_set]

/-- C6: `SetNumberOfTransitions(n)` fails its assertion exactly when
`n > Capacity()`; on an array that has its header, when `n <= Capacity()` it
returns an array whose stored transition count is `n`, with the same length and
`Capacity()`, the same content in every other slot (so in every key slot, every
target slot and the prototype-transitions slot), and
`number_of_transitions() <= Capacity()` holds afterwards. -/
theorem SetNumberOfTransitions_spec (L : Layout) (a : TransitionArray) (n : Int)
    (hL : L.WellFormed) (hlen : L.kFirstIndex ≤ a.length) :
    (TransitionArray.SetNumberOfTransitions L a n = .error .dcheck ↔
      ¬ n ≤ TransitionArray.Capacity L a) ∧
    (n ≤ TransitionArray.Capacity L a →
      ∃ a2, TransitionArray.SetNumberOfTransitions L a n = .ok a2 ∧
        TransitionArray.number_of_transitions L a2 = .ok n ∧
        a2.length = a.length ∧
        TransitionArray.Capacity L a2 = TransitionArray.Capacity L a ∧
        (∀ index : Int, index ≠ L.kTransitionLengthIndex → a2.get index = a.get index) ∧
        (∀ i : Int, 0 ≤ i → a2.get (ToKeyIndex L i) = a.get (ToKeyIndex L i) ∧
          a2.get (ToTargetIndex L i) = a.get (ToTargetIndex L i)) ∧
        a2.get L.kPrototypeTransitionsIndex = a.get L.kPrototypeTransitionsIndex ∧
        n ≤ TransitionArray.Capacity L a2) := by
  obtain ⟨hp0, hp1, ht0, ht1, hpt, hk0, hk1, hg0, hg1, hkg⟩ := hL
  have hsize : 0 < L.kEntrySize := by omega
  have hidx : L.kTransitionLengthIndex < a.length := by omega
  have hset := TransitionArray.set_of_lt a L.kTransitionLengthIndex (Smi.FromInt n) ht0 hidx
  constructor
  · unfold TransitionArray.SetNumberOfTransitions
    by_cases hn : n ≤ TransitionArray.Capacity L a
    · simp [DCHECK, hn, hset, bind, Except.bind]
    · simp [DCHECK, hn, bind, Except.bind]
  · intro hn
    refine ⟨List.set a L.kTransitionLengthIndex.toNat (Smi.FromInt n), ?_, ?_, ?_, ?_, ?_, ?_, ?_, ?_⟩
    · unfold TransitionArray.SetNumberOfTransitions
      simp [DCHECK, hn, hset, bind, Except.bind]
    · unfold TransitionArray.number_of_transitions
      rw [TransitionArray.get_set_self a _ _ ht0 hidx]
      rfl
    · exact TransitionArray.length_set a _ _
    · exact TransitionArray.Capacity_set L a _ _
    · intro index hne
      exact TransitionArray.get_set_ne a _ index _ ht0 hne
    · intro i hi
      have hprod : 0 ≤ i * L.kEntrySize := Int.mul_nonneg hi (le_of_lt hsize)
      constructor
      · exact TransitionArray.get_set_ne a _ _ _ ht0 (by unfold ToKeyIndex; omega)
      · exact TransitionArray.get_set_ne a _ _ _ ht0 (by unfold ToTargetIndex; omega)
    · exact TransitionArray.get_set_ne a _ _ _ ht0 hpt
    · rw [TransitionArray.Capacity_set]
      exact hn

/-- C6, at the sample array (capacity 2) and the count 2. -/
theorem SetNumberOfTransitions_spec_witness :
    Layout.sample.WellFormed ∧
    Layout.sample.kFirstIndex ≤ TransitionArray.sample.length ∧
    (2 : Int) ≤ TransitionArray.Capacity Layout.sample TransitionArray.sample ∧
    ∃ a2, TransitionArray.SetNumberOfTransitions Layout.sample TransitionArray.sample 2 = .ok a2 ∧
      TransitionArray.number_of_transitions Layout.sample a2 = .ok 2 ∧
      a2.length = TransitionArray.sample.length ∧
      TransitionArray.Capacity Layout.sample a2 =
        TransitionArray.Capacity Layout.sample TransitionArray.sample ∧
      (∀ index : Int, index ≠ Layout.sample.kTransitionLengthIndex →
        a2.get index = TransitionArray.sample.get index) ∧
      (∀ i : Int, 0 ≤ i →
        a2.get (ToKeyIndex Layout.sample i) =
          TransitionArray.sample.get (ToKeyIndex Layout.sample i) ∧
        a2.get (ToTargetIndex Layout.sample i) =
          TransitionArray.sample.get (ToTargetIndex Layout.sample i)) ∧
      a2.get Layout.sample.kPrototypeTransitionsIndex =
        TransitionArray.sample.get Layout.sample.kPrototypeTransitionsIndex ∧
      2 ≤ TransitionArray.Capacity Layout.sample a2 :=
  ⟨by decide, by decide, by decide,
    (SetNumberOfTransitions_spec Layout.sample TransitionArray.sample 2 (by decide)
      (by decide)).2 (by decide)⟩

/-! ## Theorems: indexed access through the accessor -/

/-- C7: in the encodings `kUninitialized` and `kPrototypeInfo`, for every index,
`TransitionsAccessor::GetKey` and `TransitionsAccessor::GetTarget` end in
`UNREACHABLE()`; they return no key, no map and no null sentinel. -/
theorem GetKey_GetTarget_unreachable (L : Layout) (acc : TransitionsAccessor) (i : Int)
    (h : acc.encoding = .kUninitialized ∨ acc.encoding = .kPrototypeInfo) :
    acc.GetKey L i = .error .unreachable ∧ acc.GetTarget L i = .error .unreachable := by
  unfold TransitionsAccessor.GetKey TransitionsAccessor.GetTarget
  rcases h with h | h <;> rw [h] <;> exact ⟨rfl, rfl⟩

/-- C7, at an accessor of a map without transitions and the index 0. -/
theorem GetKey_GetTarget_unreachable_witness :
    TransitionsAccessor.sampleEmpty.GetKey Layout.sample 0 = .error .unreachable ∧
    TransitionsAccessor.sampleEmpty.GetTarget Layout.sample 0 = .error .unreachable :=
  GetKey_GetTarget_unreachable Layout.sample TransitionsAccessor.sampleEmpty 0 (Or.inl rfl)

/-- C8 (as stated, refuted): in the encoding `kWeakRef` the calls `GetTarget(5)`
and `GetKey(5)` return the single target and its key, and in the encoding
`kHandler` so does `GetTarget(-3)`: an index other than 0 does not abort. -/
theorem GetTarget_index_counterexample :
    TransitionsAccessor.sampleWeakRef.encoding = .kWeakRef ∧
    TransitionsAccessor.sampleWeakRef.GetTarget Layout.sample 5 =
      .ok (Map.sample, TransitionsAccessor.sampleWeakRef) ∧
    TransitionsAccessor.sampleWeakRef.GetKey Layout.sample 5 =
      .ok (⟨1⟩, TransitionsAccessor.sampleWeakRef) ∧
    TransitionsAccessor.sampleHandler.encoding = .kHandler ∧
    (∃ acc, TransitionsAccessor.sampleHandler.GetTarget Layout.sample (-3) =
      .ok (Map.sample, acc)) ∧
    ¬ (∀ (L : Layout) (acc : TransitionsAccessor) (i : Int)
        (r : Map × TransitionsAccessor), acc.GetTarget L i = .ok r →
        ((acc.encoding = .kWeakRef ∨ acc.encoding = .kHandler) ∧ i = 0) ∨
        (acc.encoding = .kFullTransitionArray ∧
          ∃ a n, acc.transitions = .ok a ∧
            TransitionArray.number_of_transitions L a = .ok n ∧ 0 ≤ i ∧ i < n)) := by
  refine ⟨rfl, rfl, rfl, rfl, ⟨_, rfl⟩, ?_⟩
  intro h
  have h5 := h Layout.sample TransitionsAccessor.sampleWeakRef 5 _ rfl
  rcases h5 with ⟨_, h0⟩ | ⟨henc, _⟩
  · exact absurd h0 (by decide)
  · exact absurd henc (by decide)

theorem TransitionArray.GetKey_of_le (L : Layout) (a : TransitionArray) (n i : Int)
    (hcount : TransitionArray.number_of_transitions L a = .ok n) (hle : n ≤ i) :
    TransitionArray.GetKey L a i = .error .dcheck := by
  have hnot : ¬ i < n := by omega
  simp [TransitionArray.GetKey, hcount, DCHECK, hnot, bind, Except.bind]

theorem TransitionArray.GetRawTarget_of_le (L : Layout) (a : TransitionArray) (n i : Int)
    (hcount : TransitionArray.number_of_transitions L a = .ok n) (hle : n ≤ i) :
    TransitionArray.GetRawTarget L a i = .error .dcheck := by
  have hnot : ¬ i < n := by omega
  simp [TransitionArray.GetRawTarget, hcount, DCHECK, hnot, bind, Except.bind]

theorem TransitionArray.GetRawTarget_of_lt (L : Layout) (a : TransitionArray) (n i : Int)
    (hcount : TransitionArray.number_of_transitions L a = .ok n) (hlt : i < n) :
    TransitionArray.GetRawTarget L a i = a.get (ToTargetIndex L i) := by
  simp [TransitionArray.GetRawTarget, hcount, DCHECK, hlt, bind, Except.bind]

theorem TransitionArray.lt_of_GetKey (L : Layout) (a : TransitionArray) (i : Int) (key : Name)
    (h : TransitionArray.GetKey L a i = .ok key) :
    ∃ n, TransitionArray.number_of_transitions L a = .ok n ∧ i < n := by
  cases hcount : TransitionArray.number_of_transitions L a with
  | error e => simp [TransitionArray.GetKey, hcount, bind, Except.bind] at h
  | ok n =>
    refine ⟨n, rfl, ?_⟩
    by_contra hnot
    rw [TransitionArray.GetKey_of_le L a n i hcount (by omega)] at h
    cases h

theorem TransitionArray.lt_of_GetRawTarget (L : Layout) (a : TransitionArray) (i : Int)
    (raw : Object) (h : TransitionArray.GetRawTarget L a i = .ok raw) :
    ∃ n, TransitionArray.number_of_transitions L a = .ok n ∧ i < n := by
  cases hcount : TransitionArray.number_of_transitions L a with
  | error e => simp [TransitionArray.GetRawTarget, hcount, bind, Except.bind] at h
  | ok n =>
    refine ⟨n, rfl, ?_⟩
    by_contra hnot
    rw [TransitionArray.GetRawTarget_of_le L a n i hcount (by omega)] at h
    cases h

theorem TransitionArray.lt_of_GetTarget (L : Layout) (a : TransitionArray) (i : Int)
    (map : Map) (h : TransitionArray.GetTarget L a i = .ok map) :
    ∃ n, TransitionArray.number_of_transitions L a = .ok n ∧ i < n := by
  cases hraw : TransitionArray.GetRawTarget L a i with
  | error e => simp [TransitionArray.GetTarget, hraw, bind, Except.bind] at h
  | ok raw => exact TransitionArray.lt_of_GetRawTarget L a i raw hraw

/-- C8 (amended): in a single-edge encoding (`kWeakRef`, `kHandler`) `GetKey(i)`
and `GetTarget(i)` do not inspect the index, so they give the same result for
every index; in `kFullTransitionArray` they fail the assertion for every
`i >= number_of_transitions()`, and return a value only when
`i < number_of_transitions()`. -/
theorem GetKey_GetTarget_index (L : Layout) (acc : TransitionsAccessor) (i : Int) :
    ((acc.encoding = .kWeakRef ∨ acc.encoding = .kHandler) →
      ∀ j : Int, acc.GetKey L i = acc.GetKey L j ∧ acc.GetTarget L i = acc.GetTarget L j) ∧
    (acc.encoding = .kFullTransitionArray →
      (∀ a n, acc.transitions = .ok a → TransitionArray.number_of_transitions L a = .ok n →
        n ≤ i → acc.GetKey L i = .error .dcheck ∧ acc.GetTarget L i = .error .dcheck) ∧
      (∀ r, acc.GetKey L i = .ok r →
        ∃ a n, acc.transitions = .ok a ∧
          TransitionArray.number_of_transitions L a = .ok n ∧ i < n) ∧
      (∀ r, acc.GetTarget L i = .ok r →
        ∃ a n, acc.transitions = .ok a ∧
          TransitionArray.number_of_transitions L a = .ok n ∧ i < n)) := by
  constructor
  · intro h j
    unfold TransitionsAccessor.GetKey TransitionsAccessor.GetTarget
    rcases h with h | h <;> rw [h] <;> exact ⟨rfl, rfl⟩
  · intro henc
    refine ⟨?_, ?_, ?_⟩
    · intro a n ha hcount hle
      unfold TransitionsAccessor.GetKey TransitionsAccessor.GetTarget
      rw [henc]
      simp [ha, TransitionArray.GetKey_of_le L a n i hcount hle, TransitionArray.GetTarget,
        TransitionArray.GetRawTarget_of_le L a n i hcount hle, bind, Except.bind]
    · intro r hr
      unfold TransitionsAccessor.GetKey at hr
      rw [henc] at hr
      cases ha : acc.transitions with
      | error e => simp [ha, bind, Except.bind] at hr
      | ok a =>
        cases hkey : TransitionArray.GetKey L a i with
        | error e => simp [ha, hkey, bind, Except.bind] at hr
        | ok key =>
          obtain ⟨n, hcount, hlt⟩ := TransitionArray.lt_of_GetKey L a i key hkey
          exact ⟨a, n, rfl, hcount, hlt⟩
    · intro r hr
      unfold TransitionsAccessor.GetTarget at hr
      rw [henc] at hr
      cases ha : acc.transitions with
      | error e => simp [ha, bind, Except.bind] at hr
      | ok a =>
        cases hmap : TransitionArray.GetTarget L a i with
        | error e => simp [ha, hmap, bind, Except.bind] at hr
        | ok map =>
          obtain ⟨n, hcount, hlt⟩ := TransitionArray.lt_of_GetTarget L a i map hmap
          exact ⟨a, n, rfl, hcount, hlt⟩

/-- C8 (amended), at the sample accessors: in `kWeakRef` the indices 0 and 5 give
the same results, and over the sample array (one transition) the index 1 fails
the assertion. -/
theorem GetKey_GetTarget_index_witness :
    (TransitionsAccessor.sampleWeakRef.GetKey Layout.sample 0 =
        TransitionsAccessor.sampleWeakRef.GetKey Layout.sample 5 ∧
      TransitionsAccessor.sampleWeakRef.GetTarget Layout.sample 0 =
        TransitionsAccessor.sampleWeakRef.GetTarget Layout.sample 5) ∧
    (TransitionsAccessor.sampleFull.GetKey Layout.sample 1 = .error .dcheck ∧
      TransitionsAccessor.sampleFull.GetTarget Layout.sample 1 = .error .dcheck) :=
  ⟨(GetKey_GetTarget_index Layout.sample TransitionsAccessor.sampleWeakRef 0).1 (Or.inl rfl) 5,
   ((GetKey_GetTarget_index Layout.sample TransitionsAccessor.sampleFull 1).2 rfl).1
      TransitionArray.sample 1 rfl rfl (by decide)⟩

/-! ## Theorems: weak targets -/

/-- The raw targets from which `GetTargetFromRaw` returns a map: a live weak cell
holding the map, or a handler whose transition cell is such a cell. -/
theorem TransitionsAccessor.GetTargetFromRaw_eq_ok (raw : Object) (map : Map) :
    TransitionsAccessor.GetTargetFromRaw raw = .ok map ↔
      raw = .weakCell (.map map) ∨ raw = .storeHandler (.weakCell (.map map)) := by
  cases raw with
  | weakCell value =>
    cases value <;>
      simp [TransitionsAccessor.GetTargetFromRaw, Object.IsWeakCell, WeakCell.cast,
        WeakCell.value, Map.cast, bind, Except.bind]
  | storeHandler cell =>
    cases cell with
    | weakCell value =>
      cases value <;>
        simp [TransitionsAccessor.GetTargetFromRaw, Object.IsWeakCell, WeakCell.cast,
          StoreHandler.GetTransitionCell, WeakCell.value, Map.cast, bind, Except.bind]
    | _ =>
      simp [TransitionsAccessor.GetTargetFromRaw, Object.IsWeakCell, WeakCell.cast,
        StoreHandler.GetTransitionCell, WeakCell.value, Map.cast, bind, Except.bind]
  | _ =>
    simp [TransitionsAccessor.GetTargetFromRaw, Object.IsWeakCell, WeakCell.cast,
      StoreHandler.GetTransitionCell, WeakCell.value, Map.cast, bind, Except.bind]

/-- C9 (as stated, refuted): on a slot below `number_of_transitions()` whose raw
target is a cleared weak cell, or a handler with a cleared transition cell,
`GetTargetIfExists` does not return false: it asks the cleared cell for its
value. -/
theorem GetTargetIfExists_cleared_counterexample :
    TransitionArray.number_of_transitions Layout.sample TransitionArray.sampleCleared = .ok 1 ∧
    TransitionArray.GetRawTarget Layout.sample TransitionArray.sampleCleared 0 =
      .ok .clearedWeakCell ∧
    TransitionArray.GetTargetIfExists Layout.sample TransitionArray.sampleCleared 0 none =
      .error .clearedCell ∧
    TransitionArray.GetTargetIfExists Layout.sample TransitionArray.sampleCleared 0 none ≠
      .ok (false, none) ∧
    TransitionArray.GetRawTarget Layout.sample TransitionArray.sampleClearedHandler 0 =
      .ok (.storeHandler .clearedWeakCell) ∧
    TransitionArray.GetTargetIfExists Layout.sample TransitionArray.sampleClearedHandler 0 none =
      .error .clearedCell ∧
    TransitionArray.GetTargetIfExists Layout.sample TransitionArray.sampleClearedHandler 0 none ≠
      .ok (false, none) := by
  have h1 : TransitionArray.GetTargetIfExists Layout.sample TransitionArray.sampleCleared 0 none =
      .error .clearedCell := rfl
  have h2 : TransitionArray.GetTargetIfExists Layout.sample
      TransitionArray.sampleClearedHandler 0 none = .error .clearedCell := rfl
  refine ⟨rfl, rfl, h1, ?_, rfl, h2, ?_⟩
  · rw [h1]
    intro h
    cases h
  · rw [h2]
    intro h
    cases h

/-- C9 (amended): for a slot whose raw target can be read,
`GetTargetIfExists` returns false, leaving `*target` as it was, exactly when the
raw target is `undefined`; it returns true only when it writes the map held by
an uncleared weak cell (the raw target itself, or the transition cell of the
handler); and on a cleared weak cell, or a handler with a cleared transition
cell, it does not return: the value of the cleared cell is asked for. -/
theorem GetTargetIfExists_spec (L : Layout) (a : TransitionArray) (i : Int)
    (target : Option Map) (raw : Object)
    (hraw : TransitionArray.GetRawTarget L a i = .ok raw) :
    (raw.IsUndefined = true →
      TransitionArray.GetTargetIfExists L a i target = .ok (false, target)) ∧
    (∀ written, TransitionArray.GetTargetIfExists L a i target = .ok (false, written) →
      raw.IsUndefined = true ∧ written = target) ∧
    (∀ written, TransitionArray.GetTargetIfExists L a i target = .ok (true, written) →
      ∃ map, written = some map ∧
        (raw = .weakCell (.map map) ∨ raw = .storeHandler (.weakCell (.map map)))) ∧
    (raw = .clearedWeakCell ∨ raw = .storeHandler .clearedWeakCell →
      TransitionArray.GetTargetIfExists L a i target = .error .clearedCell) := by
  have hdef : TransitionArray.GetTargetIfExists L a i target =
      if raw.IsUndefined = true then .ok (false, target)
      else (TransitionsAccessor.GetTargetFromRaw raw).map (fun map => (true, some map)) := by
    unfold TransitionArray.GetTargetIfExists
    rw [hraw]
    by_cases hu : raw.IsUndefined = true
    · simp [hu, bind, Except.bind, pure, Except.pure]
    · simp only [hu, bind, Except.bind, pure, Except.pure, Except.map]
  refine ⟨?_, ?_, ?_, ?_⟩
  · intro hu
    rw [hdef, if_pos hu]
  · intro written hres
    rw [hdef] at hres
    by_cases hu : raw.IsUndefined = true
    · rw [if_pos hu] at hres
      injection hres with hres
      injection hres with _ hw
      exact ⟨hu, hw.symm⟩
    · rw [if_neg hu] at hres
      cases hmap : TransitionsAccessor.GetTargetFromRaw raw with
      | error e => rw [hmap] at hres; cases hres
      | ok map =>
        rw [hmap] at hres
        injection hres with hres
        injection hres with hb _
        cases hb
  · intro written hres
    rw [hdef] at hres
    by_cases hu : raw.IsUndefined = true
    · rw [if_pos hu] at hres
      injection hres with hres
      injection hres with hb _
      cases hb
    · rw [if_neg hu] at hres
      cases hmap : TransitionsAccessor.GetTargetFromRaw raw with
      | error e => rw [hmap] at hres; cases hres
      | ok map =>
        rw [hmap] at hres
        injection hres with hres
        injection hres with _ hw
        exact ⟨map, hw.symm, (TransitionsAccessor.GetTargetFromRaw_eq_ok raw map).mp hmap⟩
  · intro hcleared
    rw [hdef]
    rcases hcleared with h | h <;> subst h <;> rfl

/-- C9 (amended), at the sample array whose slot 0 holds a cleared weak cell, and
at the one whose slot 0 holds `undefined`. -/
theorem GetTargetIfExists_spec_witness :
    TransitionArray.GetTargetIfExists Layout.sample TransitionArray.sampleCleared 0 none =
      .error .clearedCell ∧
    TransitionArray.GetTargetIfExists Layout.sample TransitionArray.sampleUndefined 0 none =
      .ok (false, none) :=
  ⟨(GetTargetIfExists_spec Layout.sample TransitionArray.sampleCleared 0 none
      .clearedWeakCell rfl).2.2.2 (Or.inl rfl),
   (GetTargetIfExists_spec Layout.sample TransitionArray.sampleUndefined 0 none
      .undefined rfl).1 rfl⟩

/-! ## Theorems: the details of a target -/

/-- C10: for a name that is not a special transition symbol, and a target whose
last-added descriptor (index `target->LastAdded()`) exists, `GetTargetDetails`
returns exactly the details of that descriptor when its key is `name`, and fails
its assertion, returning no details, when the key differs from `name`; for a
special transition symbol it fails its assertion. -/
theorem GetTargetDetails_spec (IsSpecialTransition : Name → Bool) (name : Name)
    (target : Map) (last : Descriptor)
    (hlast : target.instance_descriptors.at target.LastAdded = .ok last) :
    (IsSpecialTransition name = false → last.key = name →
      TransitionsAccessor.GetTargetDetails IsSpecialTransition name target =
        .ok last.details) ∧
    (IsSpecialTransition name = false → last.key ≠ name →
      TransitionsAccessor.GetTargetDetails IsSpecialTransition name target =
        .error .dcheck) ∧
    (IsSpecialTransition name = true →
      TransitionsAccessor.GetTargetDetails IsSpecialTransition name target =
        .error .dcheck) := by
  refine ⟨?_, ?_, ?_⟩
  · intro hs hkey
    simp [TransitionsAccessor.GetTargetDetails, DescriptorArray.GetKey,
      DescriptorArray.GetDetails, hlast, hs, hkey, DCHECK, Name.Equals, Except.map, bind,
      Except.bind]
  · intro hs hkey
    simp [TransitionsAccessor.GetTargetDetails, DescriptorArray.GetKey,
      DescriptorArray.GetDetails, hlast, hs, hkey, DCHECK, Name.Equals, Except.map, bind,
      Except.bind]
  · intro hs
    simp [TransitionsAccessor.GetTargetDetails, hs, DCHECK, bind, Except.bind]

/-- C10, at the sample map, whose last-added descriptor has the key `⟨1⟩`: the
details are returned for the name `⟨1⟩` and the assertion fails for `⟨2⟩`. -/
theorem GetTargetDetails_spec_witness :
    TransitionsAccessor.GetTargetDetails (fun _ => false) ⟨1⟩ Map.sample =
      .ok ⟨.kData, ⟨0⟩⟩ ∧
    TransitionsAccessor.GetTargetDetails (fun _ => false) ⟨2⟩ Map.sample = .error .dcheck :=
  ⟨(GetTargetDetails_spec (fun _ => false) ⟨1⟩ Map.sample ⟨⟨1⟩, ⟨.kData, ⟨0⟩⟩⟩ rfl).1 rfl rfl,
   (GetTargetDetails_spec (fun _ => false) ⟨2⟩ Map.sample ⟨⟨1⟩, ⟨.kData, ⟨0⟩⟩⟩ rfl).2.1 rfl
      (by decide)⟩

/-! ## Theorems: hash collisions -/

/-- C14: for two different names with equal hashes `CompareNames` is -1 in both
argument orders, hence `CompareKeys` is -1 in both orders whatever the kinds and
attributes are; and for different names the result depends on nothing but the
two hash values. -/
theorem CompareNames_collision (key1 key2 : Name) (hash1 hash2 : Nat)
    (hne : key1 ≠ key2) (hhash : hash1 = hash2) :
    CompareNames key1 hash1 key2 hash2 = -1 ∧
    CompareNames key2 hash2 key1 hash1 = -1 ∧
    (∀ kind1 attributes1 kind2 attributes2,
      CompareKeys key1 hash1 kind1 attributes1 key2 hash2 kind2 attributes2 = -1 ∧
      CompareKeys key2 hash2 kind2 attributes2 key1 hash1 kind1 attributes1 = -1) ∧
    (∀ (other1 other2 : Name) (h1 h2 : Nat), other1 ≠ other2 →
      CompareNames other1 h1 other2 h2 = CompareNames key1 h1 key2 h2) := by
  subst hhash
  have hne2 : key2 ≠ key1 := Ne.symm hne
  refine ⟨?_, ?_, ?_, ?_⟩
  · simp [CompareNames, hne]
  · simp [CompareNames, hne2]
  · intro kind1 attributes1 kind2 attributes2
    rw [CompareKeys_other_name _ _ _ _ _ _ _ _ hne,
      CompareKeys_other_name _ _ _ _ _ _ _ _ hne2]
    simp
  · intro other1 other2 h1 h2 hother
    simp [CompareNames, hne, hother]

/-- C14, at the names `⟨1⟩` and `⟨2⟩` with the hash 7. -/
theorem CompareNames_collision_witness :
    CompareNames ⟨1⟩ 7 ⟨2⟩ 7 = -1 ∧ CompareNames ⟨2⟩ 7 ⟨1⟩ 7 = -1 :=
  ⟨(CompareNames_collision ⟨1⟩ ⟨2⟩ 7 7 (by decide) rfl).1,
   (CompareNames_collision ⟨1⟩ ⟨2⟩ 7 7 (by decide) rfl).2.1⟩

/-! ## Theorems: the single-edge encodings and the memoized cell -/

theorem TransitionsAccessor.GetTargetCell_of_some (acc : TransitionsAccessor) (cell : Object)
    (hreload : acc.needs_reload_ = false) (hcell : acc.target_cell_ = some cell) :
    acc.GetTargetCell = .ok (cell, acc) := by
  simp [TransitionsAccessor.GetTargetCell, hreload, hcell, DCHECK, bind, Except.bind, pure,
    Except.pure]

theorem TransitionsAccessor.GetTargetCell_of_none (acc : TransitionsAccessor)
    (hreload : acc.needs_reload_ = false) (hcell : acc.target_cell_ = none) :
    acc.GetTargetCell =
      (do
        let handler ← acc.raw_transitions_.ToStrongHeapObject
        let cell ← StoreHandler.GetTransitionCell handler
        pure (cell, { acc with target_cell_ := some cell })) := by
  simp [TransitionsAccessor.GetTargetCell, hreload, hcell, DCHECK, bind, Except.bind]

theorem TransitionsAccessor.GetTargetCell_ok (acc acc2 : TransitionsAccessor) (cell : Object)
    (h : acc.GetTargetCell = .ok (cell, acc2)) :
    acc2 = { acc with target_cell_ := some cell } ∧ acc.needs_reload_ = false := by
  have hreload : acc.needs_reload_ = false := by
    cases hr : acc.needs_reload_ with
    | true => simp [TransitionsAccessor.GetTargetCell, hr, DCHECK, bind, Except.bind] at h
    | false => rfl
  refine ⟨?_, hreload⟩
  cases hcell : acc.target_cell_ with
  | some cell0 =>
    rw [TransitionsAccessor.GetTargetCell_of_some acc cell0 hreload hcell] at h
    injection h with h
    injection h with h1 h2
    subst h1 h2
    cases acc
    simp_all
  | none =>
    rw [TransitionsAccessor.GetTargetCell_of_none acc hreload hcell] at h
    cases hh : acc.raw_transitions_.ToStrongHeapObject with
    | error e => simp [hh, bind, Except.bind] at h
    | ok handler =>
      cases hc : StoreHandler.GetTransitionCell handler with
      | error e => simp [hh, hc, bind, Except.bind] at h
      | ok cell0 =>
        simp only [hh, hc, bind, Except.bind, pure, Except.pure] at h
        injection h with h
        injection h with h1 h2
        subst h1
        exact h2.symm

/-- The map a weak cell yields after the check that it is not cleared: it is
returned exactly for an uncleared cell holding a map. -/
theorem WeakCell.checked_value_eq_ok (cell : Object) (map : Map) :
    (do
      let cleared ← WeakCell.cleared cell
      DCHECK (!cleared)
      let value ← WeakCell.value cell
      Map.cast value) = Except.ok map ↔ cell = .weakCell (.map map) := by
  cases cell with
  | weakCell value =>
    cases value <;>
      simp [WeakCell.cleared, WeakCell.value, Map.cast, DCHECK, bind, Except.bind]
  | _ => simp [WeakCell.cleared, WeakCell.value, Map.cast, DCHECK, bind, Except.bind]

theorem TransitionsAccessor.GetTarget_handler (L : Layout) (acc acc2 : TransitionsAccessor)
    (i : Int) (cell : Object) (henc : acc.encoding = .kHandler)
    (hcell : acc.GetTargetCell = .ok (cell, acc2)) :
    acc.GetTarget L i =
      (do
        let cleared ← WeakCell.cleared cell
        DCHECK (!cleared)
        let value ← WeakCell.value cell
        Map.cast value).map (fun map => (map, acc2)) := by
  unfold TransitionsAccessor.GetTarget
  rw [henc]
  simp only [hcell, bind, Except.bind, pure, Except.pure, Except.map]
  cases cell with
  | weakCell value =>
    cases value <;> simp [WeakCell.cleared, WeakCell.value, Map.cast, DCHECK]
  | _ => simp [WeakCell.cleared, WeakCell.value, Map.cast, DCHECK]

theorem TransitionsAccessor.GetKey_handler (L : Layout) (acc acc2 : TransitionsAccessor)
    (i : Int) (cell : Object) (henc : acc.encoding = .kHandler)
    (hcell : acc.GetTargetCell = .ok (cell, acc2)) :
    acc.GetKey L i =
      ((do
        let cleared ← WeakCell.cleared cell
        DCHECK (!cleared)
        let value ← WeakCell.value cell
        Map.cast value).bind TransitionsAccessor.GetSimpleTransitionKey).map
          (fun key => (key, acc2)) := by
  unfold TransitionsAccessor.GetKey
  rw [henc]
  simp only [hcell, bind, Except.bind, pure, Except.pure, Except.map]
  cases cell with
  | weakCell value =>
    cases value <;> simp [WeakCell.cleared, WeakCell.value, Map.cast, DCHECK]
  | _ => simp [WeakCell.cleared, WeakCell.value, Map.cast, DCHECK]

theorem TransitionsAccessor.GetTarget_handler_error (L : Layout) (acc : TransitionsAccessor)
    (i : Int) (e : Abort) (henc : acc.encoding = .kHandler)
    (hcell : acc.GetTargetCell = .error e) :
    acc.GetTarget L i = .error e ∧ acc.GetKey L i = .error e := by
  unfold TransitionsAccessor.GetTarget TransitionsAccessor.GetKey
  rw [henc]
  simp only [hcell, bind, Except.bind, and_self]

/-- The accessors on which `GetTargetCell` returns, in terms of their fields: no
reload is needed, and the cell is the memoized one, or, with `target_cell_`
null, the transition cell of the handler `raw_transitions_` refers to. -/
theorem TransitionsAccessor.GetTargetCell_eq_ok_iff (acc acc2 : TransitionsAccessor)
    (cell : Object) :
    acc.GetTargetCell = .ok (cell, acc2) ↔
      acc.needs_reload_ = false ∧
      ((acc.target_cell_ = some cell ∧ acc2 = acc) ∨
        (acc.target_cell_ = none ∧ ∃ handler, acc.raw_transitions_ = .strong handler ∧
          StoreHandler.GetTransitionCell handler = .ok cell ∧
          acc2 = { acc with target_cell_ := some cell })) := by
  constructor
  · intro h
    obtain ⟨hacc2, hreload⟩ := TransitionsAccessor.GetTargetCell_ok acc acc2 cell h
    refine ⟨hreload, ?_⟩
    cases hcell : acc.target_cell_ with
    | some cell0 =>
      rw [TransitionsAccessor.GetTargetCell_of_some acc cell0 hreload hcell] at h
      injection h with h
      injection h with h1 h2
      exact Or.inl ⟨by rw [h1], h2.symm⟩
    | none =>
      right
      refine ⟨rfl, ?_⟩
      rw [TransitionsAccessor.GetTargetCell_of_none acc hreload hcell] at h
      cases hraw : acc.raw_transitions_ with
      | strong handler =>
        rw [hraw] at h
        cases hc : StoreHandler.GetTransitionCell handler with
        | error e =>
          simp [MaybeObject.ToStrongHeapObject, hc, bind, Except.bind] at h
        | ok cell0 =>
          simp only [MaybeObject.ToStrongHeapObject, hc, bind, Except.bind, pure,
            Except.pure] at h
          injection h with h
          injection h with h1 _
          refine ⟨handler, rfl, by rw [← h1]; exact hc, ?_⟩
          rw [hacc2, hraw]
      | smi value =>
        rw [hraw] at h
        simp [MaybeObject.ToStrongHeapObject, bind, Except.bind] at h
      | weak object =>
        rw [hraw] at h
        simp [MaybeObject.ToStrongHeapObject, bind, Except.bind] at h
      | clearedWeak =>
        rw [hraw] at h
        simp [MaybeObject.ToStrongHeapObject, bind, Except.bind] at h
  · rintro ⟨hreload, ⟨hcell, hacc⟩ | ⟨hcell, handler, hraw, hc, hacc⟩⟩
    · rw [hacc]
      exact TransitionsAccessor.GetTargetCell_of_some acc cell hreload hcell
    · rw [TransitionsAccessor.GetTargetCell_of_none acc hreload hcell, hraw, hacc]
      simp [MaybeObject.ToStrongHeapObject, hc, bind, Except.bind, pure, Except.pure, hraw]

/-- C11: in the encodings `kWeakRef` and `kHandler`, `GetKey(i)` is
`GetSimpleTransitionKey` applied to the map `GetTarget(i)` returns (and ends as
`GetTarget(i)` does when that returns no map); in `kWeakRef` `GetTarget(i)`
returns exactly the map the weak reference `raw_transitions_` holds; in
`kHandler` it returns exactly the map held by an uncleared weak cell that is the
memoized `target_cell_` or, with `target_cell_` null, the transition cell
`StoreHandler::GetTransitionCell` gives for the handler `raw_transitions_`
refers to (the accessor not needing reload). -/
theorem GetKey_derived_from_target (L : Layout) (acc : TransitionsAccessor) (i : Int)
    (henc : acc.encoding = .kWeakRef ∨ acc.encoding = .kHandler) :
    acc.GetKey L i = (acc.GetTarget L i).bind (fun r =>
      (TransitionsAccessor.GetSimpleTransitionKey r.1).map (fun key => (key, r.2))) ∧
    (∀ map acc2, acc.GetTarget L i = .ok (map, acc2) →
      acc.GetKey L i =
        (TransitionsAccessor.GetSimpleTransitionKey map).map (fun key => (key, acc2))) ∧
    (acc.encoding = .kWeakRef → ∀ map acc2,
      (acc.GetTarget L i = .ok (map, acc2) ↔
        acc.raw_transitions_ = .weak (.map map) ∧ acc2 = acc)) ∧
    (acc.encoding = .kHandler → ∀ map acc2,
      (acc.GetTarget L i = .ok (map, acc2) ↔
        acc.needs_reload_ = false ∧
        ((acc.target_cell_ = some (.weakCell (.map map)) ∧ acc2 = acc) ∨
          (acc.target_cell_ = none ∧ ∃ handler, acc.raw_transitions_ = .strong handler ∧
            StoreHandler.GetTransitionCell handler = .ok (.weakCell (.map map)) ∧
            acc2 = { acc with target_cell_ := some (.weakCell (.map map)) })))) ∧
    (acc.encoding = .kHandler → ∀ map acc2,
      (acc.GetTarget L i = .ok (map, acc2) ↔
        acc.GetTargetCell = .ok (.weakCell (.map map), acc2))) := by
  have hderived : acc.GetKey L i = (acc.GetTarget L i).bind (fun r =>
      (TransitionsAccessor.GetSimpleTransitionKey r.1).map (fun key => (key, r.2))) := by
    rcases henc with h | h
    · unfold TransitionsAccessor.GetKey TransitionsAccessor.GetTarget
      rw [h]
      cases acc.raw_transitions_ with
      | weak object =>
        cases object <;>
          simp [MaybeObject.ToWeakHeapObject, Map.cast, bind, Except.bind, pure, Except.pure,
            Except.map]
      | _ => simp [MaybeObject.ToWeakHeapObject, bind, Except.bind]
    · cases hcell : acc.GetTargetCell with
      | error e =>
        obtain ⟨h1, h2⟩ := TransitionsAccessor.GetTarget_handler_error L acc i e h hcell
        rw [h1, h2]
        rfl
      | ok r =>
        obtain ⟨cell, acc2⟩ := r
        rw [TransitionsAccessor.GetKey_handler L acc acc2 i cell h hcell,
          TransitionsAccessor.GetTarget_handler L acc acc2 i cell h hcell]
        generalize (do
          let cleared ← WeakCell.cleared cell
          DCHECK (!cleared)
          let value ← WeakCell.value cell
          Map.cast value) = chain
        cases chain <;> rfl
  have hcellform : acc.encoding = .kHandler → ∀ map acc2,
      (acc.GetTarget L i = .ok (map, acc2) ↔
        acc.GetTargetCell = .ok (.weakCell (.map map), acc2)) := ?_
  refine ⟨hderived, ?_, ?_, ?_, hcellform⟩
  · intro map acc2 htarget
    rw [hderived, htarget]
    rfl
  · intro h map acc2
    unfold TransitionsAccessor.GetTarget
    rw [h]
    cases acc.raw_transitions_ with
    | weak object =>
      cases object <;>
        simp [MaybeObject.ToWeakHeapObject, Map.cast, bind, Except.bind, pure, Except.pure]
      intro _
      exact eq_comm
    | _ => simp [MaybeObject.ToWeakHeapObject, bind, Except.bind]
  · intro h map acc2
    rw [hcellform h map acc2]
    exact TransitionsAccessor.GetTargetCell_eq_ok_iff acc acc2 (.weakCell (.map map))
  · intro h map acc2
    cases hcell : acc.GetTargetCell with
    | error e =>
      rw [(TransitionsAccessor.GetTarget_handler_error L acc i e h hcell).1]
      simp
    | ok r =>
      obtain ⟨cell, acc3⟩ := r
      rw [TransitionsAccessor.GetTarget_handler L acc acc3 i cell h hcell]
      have hchain := WeakCell.checked_value_eq_ok cell map
      generalize (do
        let cleared ← WeakCell.cleared cell
        DCHECK (!cleared)
        let value ← WeakCell.value cell
        Map.cast value) = chain at hchain
      cases chain with
      | error e =>
        simp only [Except.map]
        constructor
        · intro hh
          cases hh
        · intro hh
          injection hh with hh
          injection hh with hc _
          have := hchain.mpr hc
          cases this
      | ok map2 =>
        simp only [Except.map]
        constructor
        · intro hh
          injection hh with hh
          injection hh with hm ha
          subst hm ha
          rw [hchain.mp rfl]
        · intro hh
          injection hh with hh
          injection hh with hc ha
          subst ha
          have := hchain.mpr hc
          injection this with hm
          rw [hm]

/-- C11, at the sample accessors: in `kWeakRef` the target is the map the weak
reference holds and the key is that of its last-added descriptor, `⟨1⟩`; in
`kHandler`, with `target_cell_` still null, the target is the map held by the
transition cell of the handler in `raw_transitions_`, the key is again `⟨1⟩`, and
the accessor returned has the cell memoized. -/
theorem GetKey_derived_from_target_witness :
    (TransitionsAccessor.sampleWeakRef.GetTarget Layout.sample 0 =
        .ok (Map.sample, TransitionsAccessor.sampleWeakRef) ∧
      TransitionsAccessor.sampleWeakRef.GetKey Layout.sample 0 =
        .ok (⟨1⟩, TransitionsAccessor.sampleWeakRef)) ∧
    (TransitionsAccessor.sampleHandler.GetTarget Layout.sample 0 =
        .ok (Map.sample,
          { TransitionsAccessor.sampleHandler with
            target_cell_ := some (.weakCell (.map Map.sample)) }) ∧
      TransitionsAccessor.sampleHandler.GetKey Layout.sample 0 =
        .ok (⟨1⟩,
          { TransitionsAccessor.sampleHandler with
            target_cell_ := some (.weakCell (.map Map.sample)) })) :=
  have hweak : TransitionsAccessor.sampleWeakRef.GetTarget Layout.sample 0 =
      .ok (Map.sample, TransitionsAccessor.sampleWeakRef) :=
    ((GetKey_derived_from_target Layout.sample TransitionsAccessor.sampleWeakRef 0
      (Or.inl rfl)).2.2.1 rfl Map.sample TransitionsAccessor.sampleWeakRef).mpr ⟨rfl, rfl⟩
  have hhandler : TransitionsAccessor.sampleHandler.GetTarget Layout.sample 0 =
      .ok (Map.sample,
        { TransitionsAccessor.sampleHandler with
          target_cell_ := some (.weakCell (.map Map.sample)) }) :=
    ((GetKey_derived_from_target Layout.sample TransitionsAccessor.sampleHandler 0
      (Or.inr rfl)).2.2.2.1 rfl Map.sample _).mpr
        ⟨rfl, Or.inr ⟨rfl, .storeHandler (.weakCell (.map Map.sample)), rfl, rfl, rfl⟩⟩
  ⟨⟨hweak,
      (GetKey_derived_from_target Layout.sample TransitionsAccessor.sampleWeakRef 0
        (Or.inl rfl)).2.1 Map.sample _ hweak⟩,
    ⟨hhandler,
      (GetKey_derived_from_target Layout.sample TransitionsAccessor.sampleHandler 0
        (Or.inr rfl)).2.1 Map.sample _ hhandler⟩⟩

theorem TransitionsAccessor.GetTargetCell_again (acc acc2 : TransitionsAccessor)
    (cell : Object) (h : acc.GetTargetCell = .ok (cell, acc2)) :
    acc2.GetTargetCell = .ok (cell, acc2) ∧ acc2.encoding = acc.encoding ∧
    ∀ raw : MaybeObject,
      TransitionsAccessor.GetTargetCell { acc2 with raw_transitions_ := raw } =
        .ok (cell, { acc2 with raw_transitions_ := raw }) := by
  obtain ⟨hacc2, hreload⟩ := TransitionsAccessor.GetTargetCell_ok acc acc2 cell h
  subst hacc2
  refine ⟨?_, rfl, ?_⟩
  · exact TransitionsAccessor.GetTargetCell_of_some _ cell hreload rfl
  · intro raw
    exact TransitionsAccessor.GetTargetCell_of_some _ cell hreload rfl

/-- C12: on an accessor that does not need reload and whose `target_cell_` is
still null, `GetTargetCell()` resolves `StoreHandler::GetTransitionCell` on
`raw_transitions_` and stores the cell in `target_cell_`; every call on the
accessor so obtained returns that same cell and leaves the accessor as it is,
whatever `raw_transitions_` then holds (nothing is resolved again); so in the
encoding `kHandler` a `GetKey` or `GetTarget` that has returned returns the same
result on every later call. -/
theorem GetTargetCell_memoized (acc : TransitionsAccessor) :
    (acc.needs_reload_ = false → acc.target_cell_ = none →
      acc.GetTargetCell =
        (acc.raw_transitions_.ToStrongHeapObject.bind StoreHandler.GetTransitionCell).map
          (fun cell => (cell, { acc with target_cell_ := some cell }))) ∧
    (∀ cell acc2, acc.GetTargetCell = .ok (cell, acc2) →
      acc2 = { acc with target_cell_ := some cell } ∧
      acc2.GetTargetCell = .ok (cell, acc2) ∧
      ∀ raw : MaybeObject,
        TransitionsAccessor.GetTargetCell { acc2 with raw_transitions_ := raw } =
          .ok (cell, { acc2 with raw_transitions_ := raw })) ∧
    (acc.encoding = .kHandler → ∀ L i key acc2, acc.GetKey L i = .ok (key, acc2) →
      ∀ j, acc2.GetKey L j = .ok (key, acc2)) ∧
    (acc.encoding = .kHandler → ∀ L i map acc2, acc.GetTarget L i = .ok (map, acc2) →
      ∀ j, acc2.GetTarget L j = .ok (map, acc2)) := by
  refine ⟨?_, ?_, ?_, ?_⟩
  · intro hreload hcell
    rw [TransitionsAccessor.GetTargetCell_of_none acc hreload hcell]
    cases acc.raw_transitions_.ToStrongHeapObject with
    | error e => rfl
    | ok handler =>
      simp only [bind, Except.bind, pure, Except.pure, Except.map]
  · intro cell acc2 h
    obtain ⟨h1, _, h3⟩ := TransitionsAccessor.GetTargetCell_again acc acc2 cell h
    exact ⟨(TransitionsAccessor.GetTargetCell_ok acc acc2 cell h).1, h1, h3⟩
  · intro henc L i key acc2 hkey j
    cases hcell : acc.GetTargetCell with
    | error e =>
      rw [(TransitionsAccessor.GetTarget_handler_error L acc i e henc hcell).2] at hkey
      cases hkey
    | ok r =>
      obtain ⟨cell, acc3⟩ := r
      obtain ⟨h1, h2, _⟩ := TransitionsAccessor.GetTargetCell_again acc acc3 cell hcell
      rw [TransitionsAccessor.GetKey_handler L acc acc3 i cell henc hcell] at hkey
      have hsame : acc3 = acc2 := by
        revert hkey
        generalize ((do
          let cleared ← WeakCell.cleared cell
          DCHECK (!cleared)
          let value ← WeakCell.value cell
          Map.cast value).bind TransitionsAccessor.GetSimpleTransitionKey) = chain
        intro hkey
        cases chain with
        | error e => cases hkey
        | ok k =>
          injection hkey with hkey
          injection hkey
      subst hsame
      rw [TransitionsAccessor.GetKey_handler L acc3 acc3 j cell (h2.trans henc) h1]
      exact hkey
  · intro henc L i map acc2 hmap j
    cases hcell : acc.GetTargetCell with
    | error e =>
      rw [(TransitionsAccessor.GetTarget_handler_error L acc i e henc hcell).1] at hmap
      cases hmap
    | ok r =>
      obtain ⟨cell, acc3⟩ := r
      obtain ⟨h1, h2, _⟩ := TransitionsAccessor.GetTargetCell_again acc acc3 cell hcell
      rw [TransitionsAccessor.GetTarget_handler L acc acc3 i cell henc hcell] at hmap
      have hsame : acc3 = acc2 := by
        revert hmap
        generalize (do
          let cleared ← WeakCell.cleared cell
          DCHECK (!cleared)
          let value ← WeakCell.value cell
          Map.cast value) = chain
        intro hmap
        cases chain with
        | error e => cases hmap
        | ok k =>
          injection hmap with hmap
          injection hmap
      subst hsame
      rw [TransitionsAccessor.GetTarget_handler L acc3 acc3 j cell (h2.trans henc) h1]
      exact hmap

/-- C12, at the sample accessor in the encoding `kHandler`: the first call
resolves the cell of the handler, the second returns it from `target_cell_`. -/
theorem GetTargetCell_memoized_witness :
    TransitionsAccessor.sampleHandler.GetTargetCell =
      .ok (.weakCell (.map Map.sample),
        { TransitionsAccessor.sampleHandler with
          target_cell_ := some (.weakCell (.map Map.sample)) }) ∧
    TransitionsAccessor.GetTargetCell
      { TransitionsAccessor.sampleHandler with
        target_cell_ := some (.weakCell (.map Map.sample)) } =
      .ok (.weakCell (.map Map.sample),
        { TransitionsAccessor.sampleHandler with
          target_cell_ := some (.weakCell (.map Map.sample)) }) :=
  ⟨rfl, ((GetTargetCell_memoized TransitionsAccessor.sampleHandler).2.1 _ _ rfl).2.1⟩

/-! ## Theorems: the prototype-transitions slot -/

theorem Object.isSmiZero_iff (object : Object) :
    object.isSmiZero = true ↔ object = Smi.kZero := by
  cases object <;> simp [Object.isSmiZero, Smi.kZero]

theorem Object.isSmiZero_of_IsFixedArray (object : Object) (h : object.IsFixedArray = true) :
    object.isSmiZero = false := by
  cases object <;> simp_all [Object.isSmiZero, Object.IsFixedArray]

theorem FixedArray.cast_of_IsFixedArray (object : Object) (h : object.IsFixedArray = true) :
    FixedArray.cast object = .ok object := by
  cases object <;> simp_all [FixedArray.cast, Object.IsFixedArray]

theorem TransitionArray.number_of_transitions_congr (L : Layout) (a a2 : TransitionArray)
    (h : a2.get L.kTransitionLengthIndex = a.get L.kTransitionLengthIndex) :
    TransitionArray.number_of_transitions L a2 = TransitionArray.number_of_transitions L a := by
  unfold TransitionArray.number_of_transitions
  rw [h]

theorem TransitionArray.GetKey_congr (L : Layout) (a a2 : TransitionArray) (i : Int)
    (hcount : TransitionArray.number_of_transitions L a2 =
      TransitionArray.number_of_transitions L a)
    (hslot : a2.get (ToKeyIndex L i) = a.get (ToKeyIndex L i)) :
    TransitionArray.GetKey L a2 i = TransitionArray.GetKey L a i := by
  unfold TransitionArray.GetKey
  rw [hcount, hslot]

theorem TransitionArray.GetRawTarget_congr (L : Layout) (a a2 : TransitionArray) (i : Int)
    (hcount : TransitionArray.number_of_transitions L a2 =
      TransitionArray.number_of_transitions L a)
    (hslot : a2.get (ToTargetIndex L i) = a.get (ToTargetIndex L i)) :
    TransitionArray.GetRawTarget L a2 i = TransitionArray.GetRawTarget L a i := by
  unfold TransitionArray.GetRawTarget
  rw [hcount, hslot]

/-- C15: on an array that has its header, `HasPrototypeTransitions()` is true
exactly when the slot `kPrototypeTransitionsIndex` is not Smi zero; after
`SetPrototypeTransitions(t)` with `t` a fixed array it is true and
`GetPrototypeTransitions()` returns `t`, while the transition count, every other
slot and so the key and the raw target of every entry are unchanged; and
`GetPrototypeTransitions()` fails its assertion when no side array is present. -/
theorem PrototypeTransitions_spec (L : Layout) (a : TransitionArray) (t : Object)
    (hL : L.WellFormed) (hlen : L.kFirstIndex ≤ a.length) :
    (∃ slot, a.get L.kPrototypeTransitionsIndex = .ok slot ∧
      (TransitionArray.HasPrototypeTransitions L a = .ok true ↔ slot ≠ Smi.kZero) ∧
      (TransitionArray.HasPrototypeTransitions L a = .ok false ↔ slot = Smi.kZero)) ∧
    (t.IsFixedArray = true →
      ∃ a2, TransitionArray.SetPrototypeTransitions L a t = .ok a2 ∧
        TransitionArray.HasPrototypeTransitions L a2 = .ok true ∧
        TransitionArray.GetPrototypeTransitions L a2 = .ok t ∧
        TransitionArray.number_of_transitions L a2 =
          TransitionArray.number_of_transitions L a ∧
        (∀ index : Int, index ≠ L.kPrototypeTransitionsIndex → a2.get index = a.get index) ∧
        (∀ i : Int, 0 ≤ i →
          TransitionArray.GetKey L a2 i = TransitionArray.GetKey L a i ∧
          TransitionArray.GetRawTarget L a2 i = TransitionArray.GetRawTarget L a i)) ∧
    (TransitionArray.HasPrototypeTransitions L a = .ok false →
      TransitionArray.GetPrototypeTransitions L a = .error .dcheck) := by
  obtain ⟨hp0, hp1, ht0, ht1, hpt, hk0, hk1, hg0, hg1, hkg⟩ := hL
  have hsize : 0 < L.kEntrySize := by omega
  have hidx : L.kPrototypeTransitionsIndex < a.length := by omega
  refine ⟨?_, ?_, ?_⟩
  · obtain ⟨slot, hslot⟩ := TransitionArray.get_of_lt a _ hp0 hidx
    have hzero := Object.isSmiZero_iff slot
    refine ⟨slot, hslot, ?_, ?_⟩
    · rw [Ne, ← hzero]
      cases hz : slot.isSmiZero <;>
        simp [TransitionArray.HasPrototypeTransitions, hslot, hz, bind, Except.bind, pure,
          Except.pure]
    · rw [← hzero]
      cases hz : slot.isSmiZero <;>
        simp [TransitionArray.HasPrototypeTransitions, hslot, hz, bind, Except.bind, pure,
          Except.pure]
  · intro ht
    have hset := TransitionArray.set_of_lt a L.kPrototypeTransitionsIndex t hp0 hidx
    have hself := TransitionArray.get_set_self a L.kPrototypeTransitionsIndex t hp0 hidx
    have hother : ∀ index : Int, index ≠ L.kPrototypeTransitionsIndex →
        TransitionArray.get (List.set a L.kPrototypeTransitionsIndex.toNat t) index =
          a.get index :=
      fun index hne => TransitionArray.get_set_ne a _ index t hp0 hne
    have hcount := TransitionArray.number_of_transitions_congr L a _
      (hother L.kTransitionLengthIndex (Ne.symm hpt))
    refine ⟨List.set a L.kPrototypeTransitionsIndex.toNat t, ?_, ?_, ?_, hcount, hother, ?_⟩
    · simp [TransitionArray.SetPrototypeTransitions, ht, DCHECK, hset, bind, Except.bind]
    · simp [TransitionArray.HasPrototypeTransitions, hself,
        Object.isSmiZero_of_IsFixedArray t ht, bind, Except.bind, pure, Except.pure]
    · simp [TransitionArray.GetPrototypeTransitions, TransitionArray.HasPrototypeTransitions,
        hself, Object.isSmiZero_of_IsFixedArray t ht, FixedArray.cast_of_IsFixedArray t ht,
        DCHECK, bind, Except.bind, pure, Except.pure]
    · intro i hi
      have hprod : 0 ≤ i * L.kEntrySize := Int.mul_nonneg hi (le_of_lt hsize)
      exact ⟨TransitionArray.GetKey_congr L a _ i hcount
          (hother _ (by unfold ToKeyIndex; omega)),
        TransitionArray.GetRawTarget_congr L a _ i hcount
          (hother _ (by unfold ToTargetIndex; omega))⟩
  · intro hhas
    simp [TransitionArray.GetPrototypeTransitions, hhas, DCHECK, bind, Except.bind]

/-- C15, at the sample array, which has no prototype transitions, and the fixed
array at the address 77. -/
theorem PrototypeTransitions_spec_witness :
    TransitionArray.HasPrototypeTransitions Layout.sample TransitionArray.sample = .ok false ∧
    TransitionArray.GetPrototypeTransitions Layout.sample TransitionArray.sample =
      .error .dcheck ∧
    ∃ a2, TransitionArray.SetPrototypeTransitions Layout.sample TransitionArray.sample
        (.fixedArray 77) = .ok a2 ∧
      TransitionArray.HasPrototypeTransitions Layout.sample a2 = .ok true ∧
      TransitionArray.GetPrototypeTransitions Layout.sample a2 = .ok (.fixedArray 77) ∧
      TransitionArray.number_of_transitions Layout.sample a2 =
        TransitionArray.number_of_transitions Layout.sample TransitionArray.sample ∧
      (∀ index : Int, index ≠ Layout.sample.kPrototypeTransitionsIndex →
        a2.get index = TransitionArray.sample.get index) ∧
      (∀ i : Int, 0 ≤ i →
        TransitionArray.GetKey Layout.sample a2 i =
          TransitionArray.GetKey Layout.sample TransitionArray.sample i ∧
        TransitionArray.GetRawTarget Layout.sample a2 i =
          TransitionArray.GetRawTarget Layout.sample TransitionArray.sample i) :=
  ⟨rfl,
   (PrototypeTransitions_spec Layout.sample TransitionArray.sample (.fixedArray 77)
      (by decide) (by decide)).2.2 rfl,
   (PrototypeTransitions_spec Layout.sample TransitionArray.sample (.fixedArray 77)
      (by decide) (by decide)).2.1 rfl⟩

/-! ## Theorems: writing an entry -/

theorem TransitionArray.entry_in_bounds (L : Layout) (a : TransitionArray) (i : Int)
    (hL : L.WellFormed) (hi : 0 ≤ i) (hcap : i < TransitionArray.Capacity L a) :
    (L.kFirstIndex ≤ ToKeyIndex L i ∧ ToKeyIndex L i < a.length) ∧
    (L.kFirstIndex ≤ ToTargetIndex L i ∧ ToTargetIndex L i < a.length) := by
  obtain ⟨hp0, hp1, ht0, ht1, hpt, hk0, hk1, hg0, hg1, hkg⟩ := hL
  have hsize : 0 < L.kEntrySize := by omega
  have hlen : L.kFirstIndex < a.length := by
    by_contra hcon
    have : TransitionArray.Capacity L a = 0 := by
      simp [TransitionArray.Capacity, not_lt.mp hcon]
    omega
  rw [TransitionArray.Capacity_eq_ediv L a hsize (le_of_lt hlen)] at hcap
  have hle := Int.ediv_mul_le (a.length - L.kFirstIndex) (ne_of_gt hsize)
  have hstep : (i + 1) * L.kEntrySize ≤
      (a.length - L.kFirstIndex) / L.kEntrySize * L.kEntrySize :=
    Int.mul_le_mul_of_nonneg_right (by omega) (le_of_lt hsize)
  have hprod : 0 ≤ i * L.kEntrySize := Int.mul_nonneg hi (le_of_lt hsize)
  have hexp : (i + 1) * L.kEntrySize = i * L.kEntrySize + L.kEntrySize := by ring
  unfold ToKeyIndex ToTargetIndex
  refine ⟨⟨by linarith, by linarith⟩, ⟨by linarith, by linarith⟩⟩

/-- The slots of two different entries are different slots, and so are the key
slot and the target slot of one entry. -/
theorem Layout.slots_ne (L : Layout) (hL : L.WellFormed) (i j : Int) (hne : j ≠ i) :
    ToKeyIndex L j ≠ ToKeyIndex L i ∧ ToKeyIndex L j ≠ ToTargetIndex L i ∧
    ToTargetIndex L j ≠ ToKeyIndex L i ∧ ToTargetIndex L j ≠ ToTargetIndex L i ∧
    ToKeyIndex L i ≠ ToTargetIndex L i := by
  obtain ⟨hp0, hp1, ht0, ht1, hpt, hk0, hk1, hg0, hg1, hkg⟩ := hL
  have hsize : 0 < L.kEntrySize := by omega
  have hgap : i * L.kEntrySize + L.kEntrySize ≤ j * L.kEntrySize ∨
      j * L.kEntrySize + L.kEntrySize ≤ i * L.kEntrySize := by
    rcases lt_or_gt_of_ne hne with h | h
    · right
      have h1 : (j + 1) * L.kEntrySize ≤ i * L.kEntrySize :=
        Int.mul_le_mul_of_nonneg_right (by omega) (le_of_lt hsize)
      have h2 : (j + 1) * L.kEntrySize = j * L.kEntrySize + L.kEntrySize := by ring
      linarith
    · left
      have h1 : (i + 1) * L.kEntrySize ≤ j * L.kEntrySize :=
        Int.mul_le_mul_of_nonneg_right (by omega) (le_of_lt hsize)
      have h2 : (i + 1) * L.kEntrySize = i * L.kEntrySize + L.kEntrySize := by ring
      linarith
  unfold ToKeyIndex ToTargetIndex
  refine ⟨?_, ?_, ?_, ?_, ?_⟩ <;> intro heq <;> rcases hgap with h | h <;> omega

/-- C16: on an array whose transition count does not exceed its capacity, for
every index `i` with `0 <= i < number_of_transitions()`, `Set(i, key, target)`
returns an array in which `GetKey(i)` is `key` and `GetRawTarget(i)` is `target`,
while the key and the raw target of every other index, the stored transition
count, the prototype-transitions slot and the length are unchanged. -/
theorem Set_spec (L : Layout) (a : TransitionArray) (i : Int) (key : Name) (target : Object)
    (n : Int) (hL : L.WellFormed)
    (hcount : TransitionArray.number_of_transitions L a = .ok n)
    (hcap : n ≤ TransitionArray.Capacity L a) (hi : 0 ≤ i) (hlt : i < n) :
    ∃ a2, TransitionArray.Set L a i key target = .ok a2 ∧
      TransitionArray.GetKey L a2 i = .ok key ∧
      TransitionArray.GetRawTarget L a2 i = .ok target ∧
      (∀ j : Int, j ≠ i →
        TransitionArray.GetKey L a2 j = TransitionArray.GetKey L a j ∧
        TransitionArray.GetRawTarget L a2 j = TransitionArray.GetRawTarget L a j) ∧
      TransitionArray.number_of_transitions L a2 = .ok n ∧
      a2.get L.kPrototypeTransitionsIndex = a.get L.kPrototypeTransitionsIndex ∧
      a2.length = a.length := by
  obtain ⟨⟨hk1, hk2⟩, ⟨hg1, hg2⟩⟩ :=
    TransitionArray.entry_in_bounds L a i hL hi (lt_of_lt_of_le hlt hcap)
  have hkt : ToKeyIndex L i ≠ ToTargetIndex L i :=
    (Layout.slots_ne L hL i (i + 1) (by omega)).2.2.2.2
  obtain ⟨hp0, hp1, ht0, ht1, hpt, -, -, -, -, -⟩ := id hL
  have hk0 : 0 ≤ ToKeyIndex L i := by omega
  have hg0 : 0 ≤ ToTargetIndex L i := by omega
  have hlen1 : TransitionArray.length (List.set a (ToKeyIndex L i).toNat (.name key)) =
      a.length := TransitionArray.length_set a _ _
  have hset1 := TransitionArray.set_of_lt a (ToKeyIndex L i) (.name key) hk0 hk2
  have hset2 := TransitionArray.set_of_lt (List.set a (ToKeyIndex L i).toNat (.name key))
    (ToTargetIndex L i) target hg0 (by rw [hlen1]; exact hg2)
  have hframe : ∀ index : Int, index ≠ ToKeyIndex L i → index ≠ ToTargetIndex L i →
      TransitionArray.get (List.set (List.set a (ToKeyIndex L i).toNat (.name key))
        (ToTargetIndex L i).toNat target) index = a.get index := by
    intro index h1 h2
    rw [TransitionArray.get_set_ne _ _ index target hg0 h2,
      TransitionArray.get_set_ne a _ index (.name key) hk0 h1]
  have hcount2 := TransitionArray.number_of_transitions_congr L a _
    (hframe L.kTransitionLengthIndex (by omega) (by omega))
  refine ⟨List.set (List.set a (ToKeyIndex L i).toNat (.name key))
    (ToTargetIndex L i).toNat target, ?_, ?_, ?_, ?_, ?_, ?_, ?_⟩
  · unfold TransitionArray.Set
    simp [hset1, hset2, bind, Except.bind]
  · unfold TransitionArray.GetKey
    rw [hcount2, hcount, TransitionArray.get_set_ne _ _ _ target hg0 hkt,
      TransitionArray.get_set_self a _ (.name key) hk0 hk2]
    simp [DCHECK, hlt, Name.cast, bind, Except.bind]
  · unfold TransitionArray.GetRawTarget
    rw [hcount2, hcount,
      TransitionArray.get_set_self _ _ target hg0 (by rw [hlen1]; exact hg2)]
    simp [DCHECK, hlt, bind, Except.bind]
  · intro j hne
    obtain ⟨h1, h2, h3, h4, -⟩ := Layout.slots_ne L hL i j hne
    exact ⟨TransitionArray.GetKey_congr L a _ j hcount2 (hframe _ h1 h2),
      TransitionArray.GetRawTarget_congr L a _ j hcount2 (hframe _ h3 h4)⟩
  · rw [hcount2, hcount]
  · exact hframe _ (by omega) (by omega)
  · rw [TransitionArray.length_set, TransitionArray.length_set]

/-- C16, at the sample array (one transition, capacity 2) and the index 0. -/
theorem Set_spec_witness :
    ∃ a2, TransitionArray.Set Layout.sample TransitionArray.sample 0 ⟨5⟩ .undefined = .ok a2 ∧
      TransitionArray.GetKey Layout.sample a2 0 = .ok ⟨5⟩ ∧
      TransitionArray.GetRawTarget Layout.sample a2 0 = .ok .undefined ∧
      (∀ j : Int, j ≠ 0 →
        TransitionArray.GetKey Layout.sample a2 j =
          TransitionArray.GetKey Layout.sample TransitionArray.sample j ∧
        TransitionArray.GetRawTarget Layout.sample a2 j =
          TransitionArray.GetRawTarget Layout.sample TransitionArray.sample j) ∧
      TransitionArray.number_of_transitions Layout.sample a2 = .ok 1 ∧
      a2.get Layout.sample.kPrototypeTransitionsIndex =
        TransitionArray.sample.get Layout.sample.kPrototypeTransitionsIndex ∧
      a2.length = TransitionArray.sample.length :=
  Set_spec Layout.sample TransitionArray.sample 0 ⟨5⟩ .undefined 1 (by decide) rfl
    (by decide) (by decide) (by decide)

/-! ## Theorems: `GetTargetIfExists` and `GetTarget` -/

theorem Object.IsUndefined_iff (object : Object) :
    object.IsUndefined = true ↔ object = .undefined := by
  cases object <;> simp [Object.IsUndefined]

theorem TransitionArray.GetTargetIfExists_eq (L : Layout) (a : TransitionArray) (i : Int)
    (target : Option Map) (raw : Object)
    (hraw : TransitionArray.GetRawTarget L a i = .ok raw) :
    TransitionArray.GetTargetIfExists L a i target =
      if raw.IsUndefined = true then .ok (false, target)
      else (TransitionsAccessor.GetTargetFromRaw raw).map (fun map => (true, some map)) := by
  unfold TransitionArray.GetTargetIfExists
  rw [hraw]
  by_cases hu : raw.IsUndefined = true
  · simp [hu, bind, Except.bind, pure, Except.pure]
  · simp only [hu, bind, Except.bind, pure, Except.pure, Except.map]

/-- C17: for a slot whose raw target can be read (so `i <
number_of_transitions()`), `GetTargetIfExists` returns false, leaving `*target`
as it was, exactly when the raw target is `undefined`; otherwise it is
`GetTarget(i)` with true returned and the map written to `*target` (and ends as
`GetTarget(i)` does when that returns no map); and `GetTarget(i)` is the value
of the weak cell when the raw target is a weak cell and the value of the
handler's transition cell otherwise. -/
theorem GetTargetIfExists_guards_GetTarget (L : Layout) (a : TransitionArray) (i : Int)
    (target : Option Map) (raw : Object)
    (hraw : TransitionArray.GetRawTarget L a i = .ok raw) :
    (TransitionArray.GetTargetIfExists L a i target = .ok (false, target) ↔
      raw = .undefined) ∧
    (∀ written, TransitionArray.GetTargetIfExists L a i target = .ok (false, written) →
      raw = .undefined ∧ written = target) ∧
    (raw ≠ .undefined →
      TransitionArray.GetTargetIfExists L a i target =
        (TransitionArray.GetTarget L a i).map (fun map => (true, some map))) ∧
    (raw.IsWeakCell = true →
      TransitionArray.GetTarget L a i = (WeakCell.value raw).bind Map.cast) ∧
    (raw.IsWeakCell = false →
      TransitionArray.GetTarget L a i =
        (StoreHandler.GetTransitionCell raw).bind (fun cell =>
          (WeakCell.value cell).bind Map.cast)) := by
  have hdef := TransitionArray.GetTargetIfExists_eq L a i target raw hraw
  have hundef := Object.IsUndefined_iff raw
  have htarget : TransitionArray.GetTarget L a i = TransitionsAccessor.GetTargetFromRaw raw := by
    unfold TransitionArray.GetTarget
    rw [hraw]
    rfl
  have hfalse : ∀ written,
      TransitionArray.GetTargetIfExists L a i target = .ok (false, written) →
      raw = .undefined ∧ written = target := by
    intro written hres
    rw [hdef] at hres
    by_cases hu : raw.IsUndefined = true
    · rw [if_pos hu] at hres
      injection hres with hres
      injection hres with _ hw
      exact ⟨hundef.mp hu, hw.symm⟩
    · rw [if_neg hu] at hres
      cases hmap : TransitionsAccessor.GetTargetFromRaw raw with
      | error e => rw [hmap] at hres; cases hres
      | ok map =>
        rw [hmap] at hres
        injection hres with hres
        injection hres with hb _
        cases hb
  refine ⟨?_, hfalse, ?_, ?_, ?_⟩
  · constructor
    · intro hres
      exact (hfalse target hres).1
    · intro hu
      rw [hdef, if_pos (hundef.mpr hu)]
  · intro hne
    have hu : ¬ raw.IsUndefined = true := fun h => hne (hundef.mp h)
    rw [hdef, if_neg hu, htarget]
  · intro hweak
    rw [htarget]
    cases raw <;>
      simp_all [TransitionsAccessor.GetTargetFromRaw, Object.IsWeakCell, WeakCell.cast,
        WeakCell.value, bind, Except.bind]
  · intro hweak
    rw [htarget]
    unfold TransitionsAccessor.GetTargetFromRaw
    simp only [hweak, Bool.false_eq_true, if_false, bind, Except.bind]

/-- C17, at the sample array (slot 0 holds a live weak cell) and at the one
whose slot 0 holds `undefined`. -/
theorem GetTargetIfExists_guards_GetTarget_witness :
    TransitionArray.GetTargetIfExists Layout.sample TransitionArray.sample 0 none =
      (TransitionArray.GetTarget Layout.sample TransitionArray.sample 0).map
        (fun map => (true, some map)) ∧
    TransitionArray.GetTarget Layout.sample TransitionArray.sample 0 = .ok Map.sample ∧
    TransitionArray.GetTargetIfExists Layout.sample TransitionArray.sampleUndefined 0 none =
      .ok (false, none) :=
  ⟨(GetTargetIfExists_guards_GetTarget Layout.sample TransitionArray.sample 0 none
      (.weakCell (.map Map.sample)) rfl).2.2.1 (by intro h; cases h),
   rfl,
   (GetTargetIfExists_guards_GetTarget Layout.sample TransitionArray.sampleUndefined 0 none
      .undefined rfl).1.mpr rfl⟩

/-! ## Theorems: searching the name-sorted region -/

/-- The halving loop ends, within the iterations it is given, at the first entry
whose hash is not below the hash searched for, or at the last entry. -/
theorem BinarySearchLoop_spec (Hash : Name → Nat) (L : Layout) (a : TransitionArray)
    (t n : Nat) (g : Nat → Name)
    (hread : ∀ j : Nat, j < n → TransitionArray.GetKey L a (j : Int) = .ok (g j))
    (hmono : ∀ j k : Nat, j ≤ k → k < n → Hash (g j) ≤ Hash (g k)) :
    ∀ fuel l h : Nat, h < n → l ≤ h → h - l ≤ fuel →
      (∀ j, j < l → Hash (g j) < t) → (h + 1 < n → t ≤ Hash (g h)) →
      ∃ p : Nat, BinarySearchLoop Hash L a t fuel (l : Int) (h : Int) = .ok (p : Int) ∧
        p ≤ h ∧ (∀ j, j < p → Hash (g j) < t) ∧ (p + 1 < n → t ≤ Hash (g p)) := by
  intro fuel
  induction fuel with
  | zero =>
    intro l h _ hl hf hlow hhigh
    have heq : l = h := by omega
    subst heq
    exact ⟨l, by simp [BinarySearchLoop], le_refl _, hlow, hhigh⟩
  | succ fuel ih =>
    intro l h hh hl hf hlow hhigh
    by_cases heq : l = h
    · subst heq
      exact ⟨l, by simp [BinarySearchLoop], le_refl _, hlow, hhigh⟩
    · have hne : (l : Int) ≠ (h : Int) := by omega
      have hmid : (l : Int) + ((h : Int) - (l : Int)).tdiv 2 = ((l + (h - l) / 2 : Nat) : Int) := by
        rw [Int.tdiv_eq_ediv (by omega) (by decide)]
        omega
      have hm : l + (h - l) / 2 < n := by omega
      rw [BinarySearchLoop, if_neg hne]
      simp only [hmid, hread _ hm, bind, Except.bind]
      by_cases ht : t ≤ Hash (g (l + (h - l) / 2))
      · rw [if_pos ht]
        obtain ⟨p, hp, hph, hp1, hp2⟩ := ih l (l + (h - l) / 2) hm (by omega) (by omega) hlow
          (fun _ => ht)
        exact ⟨p, hp, by omega, hp1, hp2⟩
      · rw [if_neg ht]
        have hlow2 : ∀ j, j < l + (h - l) / 2 + 1 → Hash (g j) < t := by
          intro j hj
          have := hmono j (l + (h - l) / 2) (by omega) hm
          omega
        obtain ⟨p, hp, hph, hp1, hp2⟩ := ih (l + (h - l) / 2 + 1) h hh (by omega) (by omega)
          hlow2 hhigh
        refine ⟨p, ?_, hph, hp1, hp2⟩
        rw [← hp]
        push_cast
        rfl

/-- There is one answer to a search. -/
theorem SearchAnswer.unique (Hash : Name → Nat) (g : Nat → Name) (n : Nat) (name : Name)
    (out : Option Int) (r1 r2 : Int × Option Int)
    (h1 : SearchAnswer Hash g n name out r1) (h2 : SearchAnswer Hash g n name out r2) :
    r1 = r2 := by
  rcases h1 with ⟨p, hp, rfl, hgp, hleast⟩ | ⟨p, hp, rfl, hnone, hbefore, hafter⟩
  · rcases h2 with ⟨q, hq, rfl, hgq, hleast2⟩ | ⟨q, _, rfl, hnone2, _, _⟩
    · have hpq : p = q := by
        rcases Nat.lt_trichotomy p q with h | h | h
        · exact absurd hgp (hleast2 p h)
        · exact h
        · exact absurd hgq (hleast q h)
      rw [hpq]
    · exact absurd hgp (hnone2 p hp)
  · rcases h2 with ⟨q, hq, rfl, hgq, _⟩ | ⟨q, hq, rfl, _, hbefore2, hafter2⟩
    · exact absurd hgq (hnone q hq)
    · have hpq : p = q := by
        rcases Nat.lt_trichotomy p q with h | h | h
        · have h3 := hafter p (le_refl _) (by omega)
          have h4 := hbefore2 p h
          omega
        · exact h
        · have h3 := hafter2 q (le_refl _) (by omega)
          have h4 := hbefore q h
          omega
      rw [hpq]

/-- The walk over the entries of equal hash gives the answer of the search, when
it starts where the halving loop ends. -/
theorem BinarySearchScan_spec (Hash : Name → Nat) (L : Layout) (a : TransitionArray)
    (name : Name) (out : Option Int) (n : Nat) (g : Nat → Name)
    (hread : ∀ j : Nat, j < n → TransitionArray.GetKey L a (j : Int) = .ok (g j))
    (hmono : ∀ j k : Nat, j ≤ k → k < n → Hash (g j) ≤ Hash (g k)) :
    ∀ r q : Nat, q + r = n →
      (∀ j, j < q → g j ≠ name ∧ Hash (g j) ≤ Hash name) →
      (q + 1 < n → Hash name ≤ Hash (g q)) →
      ∃ result, BinarySearchScan Hash L a name (Hash name) out r (q : Int) = .ok result ∧
        SearchAnswer Hash g n name out result := by
  intro r
  induction r with
  | zero =>
    intro q hq hinv _
    refine ⟨_, rfl, Or.inr ⟨q, by omega, rfl, ?_, ?_, ?_⟩⟩
    · intro j hj
      exact (hinv j (by omega)).1
    · intro j hj
      exact (hinv j hj).2
    · intro j hj1 hj2
      omega
  | succ r ih =>
    intro q hq hinv hlower
    have hqn : q < n := by omega
    rw [BinarySearchScan]
    simp only [hread q hqn, bind, Except.bind]
    by_cases hhash : Hash (g q) = Hash name
    · simp only [hhash, ne_eq, not_true_eq_false, if_false]
      by_cases hname : g q = name
      · rw [if_pos hname]
        exact ⟨_, rfl, Or.inl ⟨q, hqn, rfl, hname, fun j hj => (hinv j hj).1⟩⟩
      · rw [if_neg hname]
        have hinv2 : ∀ j, j < q + 1 → g j ≠ name ∧ Hash (g j) ≤ Hash name := by
          intro j hj
          rcases Nat.lt_succ_iff_lt_or_eq.mp hj with h | h
          · exact hinv j h
          · subst h
            exact ⟨hname, le_of_eq hhash⟩
        have hlower2 : q + 1 + 1 < n → Hash name ≤ Hash (g (q + 1)) := by
          intro h
          have := hmono q (q + 1) (by omega) (by omega)
          omega
        obtain ⟨result, hres, hans⟩ := ih (q + 1) (by omega) hinv2 hlower2
        refine ⟨result, ?_, hans⟩
        rw [← hres]
        push_cast
        rfl
    · simp only [ne_eq, hhash, not_false_eq_true, if_true]
      by_cases hgt : Hash name < Hash (g q)
      · rw [if_pos hgt]
        refine ⟨_, rfl, Or.inr ⟨q, by omega, by simp, ?_, ?_, ?_⟩⟩
        · intro j hj
          by_cases hjq : j < q
          · exact (hinv j hjq).1
          · intro hgj
            have := hmono q j (by omega) hj
            rw [hgj] at this
            omega
        · intro j hj
          exact (hinv j hj).2
        · intro j hj1 hj2
          have := hmono q j hj1 hj2
          omega
      · rw [if_neg hgt]
        have hlast : q + 1 = n := by
          by_contra hcon
          have := hlower (by omega)
          omega
        refine ⟨_, rfl, Or.inr ⟨n, le_refl _, ?_, ?_, ?_, ?_⟩⟩
        · rw [← hlast]
          push_cast
          rfl
        · intro j hj
          by_cases hjq : j < q
          · exact (hinv j hjq).1
          · have hjeq : j = q := by omega
            subst hjeq
            intro hgj
            exact hhash (by rw [hgj])
        · intro j hj
          by_cases hjq : j < q
          · exact (hinv j hjq).2
          · have hjeq : j = q := by omega
            subst hjeq
            omega
        · intro j hj1 hj2
          omega

theorem LinearScanFind_spec (L : Layout) (a : TransitionArray) (name : Name) (n : Nat)
    (g : Nat → Name)
    (hread : ∀ j : Nat, j < n → TransitionArray.GetKey L a (j : Int) = .ok (g j)) :
    ∀ r q : Nat, q + r = n → (∀ j, j < q → g j ≠ name) →
      (∃ p : Nat, p < n ∧ LinearScanFind L a name r (q : Int) = .ok (some (p : Int)) ∧
        g p = name ∧ ∀ j, j < p → g j ≠ name) ∨
      (LinearScanFind L a name r (q : Int) = .ok none ∧ ∀ j, j < n → g j ≠ name) := by
  intro r
  induction r with
  | zero =>
    intro q hq hinv
    exact Or.inr ⟨rfl, fun j hj => hinv j (by omega)⟩
  | succ r ih =>
    intro q hq hinv
    have hqn : q < n := by omega
    rw [LinearScanFind]
    simp only [hread q hqn, bind, Except.bind]
    by_cases hname : g q = name
    · rw [if_pos hname]
      exact Or.inl ⟨q, hqn, rfl, hname, hinv⟩
    · rw [if_neg hname]
      have hinv2 : ∀ j, j < q + 1 → g j ≠ name := by
        intro j hj
        rcases Nat.lt_succ_iff_lt_or_eq.mp hj with h | h
        · exact hinv j h
        · subst h
          exact hname
      have hcast : (q : Int) + 1 = ((q + 1 : Nat) : Int) := by push_cast; rfl
      rw [hcast]
      exact ih (q + 1) (by omega) hinv2

theorem LinearScanInsertion_spec (Hash : Name → Nat) (L : Layout) (a : TransitionArray)
    (name : Name) (n : Nat) (g : Nat → Name)
    (hread : ∀ j : Nat, j < n → TransitionArray.GetKey L a (j : Int) = .ok (g j)) :
    ∀ r q : Nat, q + r = n → (∀ j, j < q → Hash (g j) ≤ Hash name) →
      ∃ p : Nat, p ≤ n ∧ LinearScanInsertion Hash L a name r (q : Int) = .ok (p : Int) ∧
        (∀ j, j < p → Hash (g j) ≤ Hash name) ∧ (p < n → Hash name < Hash (g p)) := by
  intro r
  induction r with
  | zero =>
    intro q hq hinv
    exact ⟨q, by omega, rfl, hinv, fun h => by omega⟩
  | succ r ih =>
    intro q hq hinv
    have hqn : q < n := by omega
    rw [LinearScanInsertion]
    simp only [hread q hqn, bind, Except.bind]
    by_cases hgt : Hash name < Hash (g q)
    · rw [if_pos hgt]
      exact ⟨q, by omega, rfl, hinv, fun _ => hgt⟩
    · rw [if_neg hgt]
      have hinv2 : ∀ j, j < q + 1 → Hash (g j) ≤ Hash name := by
        intro j hj
        rcases Nat.lt_succ_iff_lt_or_eq.mp hj with h | h
        · exact hinv j h
        · subst h
          omega
      have hcast : (q : Int) + 1 = ((q + 1 : Nat) : Int) := by push_cast; rfl
      rw [hcast]
      exact ih (q + 1) (by omega) hinv2

/-- The linear scan gives the answer of the search. -/
theorem LinearSearchName_spec (Hash : Name → Nat) (L : Layout) (a : TransitionArray)
    (name : Name) (out : Option Int) (n : Nat) (g : Nat → Name)
    (hentries : TransitionArray.number_of_entries L a = .ok (n : Int))
    (hread : ∀ j : Nat, j < n → TransitionArray.GetKey L a (j : Int) = .ok (g j))
    (hmono : ∀ j k : Nat, j ≤ k → k < n → Hash (g j) ≤ Hash (g k)) :
    ∃ result, LinearSearchName Hash L a name out = .ok result ∧
      SearchAnswer Hash g n name out result := by
  unfold LinearSearchName
  simp only [hentries, bind, Except.bind, Int.toNat_ofNat]
  have hzero : (0 : Int) = ((0 : Nat) : Int) := rfl
  rw [hzero]
  rcases LinearScanFind_spec L a name n g hread n 0 (by omega) (fun j hj => by omega) with
    ⟨p, hp, hfind, hgp, hleast⟩ | ⟨hfind, hnone⟩
  · rw [hfind]
    exact ⟨_, rfl, Or.inl ⟨p, hp, rfl, hgp, hleast⟩⟩
  · rw [hfind]
    obtain ⟨p, hp, hins, hbefore, hat⟩ :=
      LinearScanInsertion_spec Hash L a name n g hread n 0 (by omega) (fun j hj => by omega)
    simp only [hins]
    refine ⟨_, rfl, Or.inr ⟨p, hp, rfl, hnone, hbefore, ?_⟩⟩
    intro j hj1 hj2
    have h1 := hat (by omega)
    have h2 := hmono p j hj1 hj2
    omega

/-- The binary search gives the answer of the search. -/
theorem Search_spec (Hash : Name → Nat) (L : Layout) (a : TransitionArray)
    (name : Name) (out : Option Int) (n : Nat) (g : Nat → Name)
    (hread : ∀ j : Nat, j < n → TransitionArray.GetKey L a (j : Int) = .ok (g j))
    (hmono : ∀ j k : Nat, j ≤ k → k < n → Hash (g j) ≤ Hash (g k)) :
    ∃ result, Search Hash L a name (n : Int) out = .ok result ∧
      SearchAnswer Hash g n name out result := by
  unfold Search
  by_cases hn : n = 0
  · subst hn
    refine ⟨_, by simp, Or.inr ⟨0, le_refl _, rfl, ?_, ?_, ?_⟩⟩ <;> intro j hj <;> omega
  · have hne : (n : Int) ≠ 0 := by omega
    have hlimit : (n : Int) - 1 = ((n - 1 : Nat) : Int) := by omega
    have hzero : (0 : Int) = ((0 : Nat) : Int) := rfl
    obtain ⟨p, hloop, hpn, hlow, hhigh⟩ :=
      BinarySearchLoop_spec Hash L a (Hash name) n g hread hmono n 0 (n - 1) (by omega)
        (by omega) (by omega) (fun j hj => by omega) (fun h => by omega)
    have hrest : ((n : Int) - 1 - (p : Int) + 1).toNat = n - p := by omega
    have hinv : ∀ j, j < p → g j ≠ name ∧ Hash (g j) ≤ Hash name := by
      intro j hj
      have := hlow j hj
      refine ⟨?_, by omega⟩
      intro hgj
      rw [hgj] at this
      omega
    obtain ⟨result, hscan, hans⟩ :=
      BinarySearchScan_spec Hash L a name out n g hread hmono (n - p) p (by omega) hinv hhigh
    refine ⟨result, ?_, hans⟩
    rw [if_neg hne]
    have hdcheck : DCHECK (decide (0 ≤ (n : Int) - 1)) = .ok () := by
      have : 0 ≤ (n : Int) - 1 := by omega
      simp [DCHECK, this]
    simp only [hdcheck, bind, Except.bind, Int.toNat_ofNat]
    rw [hzero, hlimit, hloop]
    simp only []
    rw [← hlimit, hrest]
    exact hscan

/-- Two keys in comparator order have their hashes in ascending order. -/
theorem Key.hash_le_of_compare_neg (Hash : Name → Nat) (x y : Key)
    (hx : x.hash = Hash x.name) (hy : y.hash = Hash y.name) (h : x.compare y < 0) :
    Hash x.name ≤ Hash y.name := by
  by_cases hn : x.name = y.name
  · rw [hn]
  · unfold Key.compare at h
    rw [CompareKeys_other_name _ _ _ _ _ _ _ _ hn] at h
    by_cases hle : x.hash ≤ y.hash
    · omega
    · rw [if_neg hle] at h
      exact absurd h (by decide)

/-- In a list of keys whose adjacent entries are in comparator order the hashes
ascend. -/
theorem Key.hash_mono_of_chain (Hash : Name → Nat) (keys : List Key) (d : Key)
    (hhash : ∀ (j : Nat) (hj : j < keys.length), keys[j].hash = Hash keys[j].name)
    (hsorted : List.Chain' (fun x y => x.compare y < 0) keys) :
    ∀ j k : Nat, j ≤ k → k < keys.length →
      Hash (keys.getD j d).name ≤ Hash (keys.getD k d).name := by
  intro j k hjk
  induction k with
  | zero =>
    intro _
    have : j = 0 := by omega
    rw [this]
  | succ k ih =>
    intro hk
    by_cases hj : j = k + 1
    · rw [hj]
    · have h1 := ih (by omega) (by omega)
      have hadj := List.chain'_iff_get.mp hsorted k (by omega)
      simp only [List.get_eq_getElem] at hadj
      have hk0 : k < keys.length := by omega
      have h2 := Key.hash_le_of_compare_neg Hash keys[k] keys[k + 1] (hhash k hk0)
        (hhash (k + 1) hk) hadj
      rw [List.getD_eq_getElem keys d hk0] at h1
      rw [List.getD_eq_getElem keys d hk]
      exact le_trans h1 h2

/-- C13: for a transition array whose first `number_of_entries()` keys are the
names of a list of keys strictly ordered by the comparator on adjacent entries
(each key with the hash of its name), and for a unique name, `SearchName`
returns what the linear scan over those keys returns: the index of the first
key identical to `name`, the insertion index left as it was, when there is one;
otherwise not-found, with the insertion index set to a position such that every
key before it is less than a key of that name and every key from it on is
greater, by the comparator. -/
theorem SearchName_agrees_with_linear_scan (IsUniqueName : Name → Bool) (Hash : Name → Nat)
    (L : Layout) (a : TransitionArray) (name : Name) (out : Option Int) (keys : List Key)
    (hunique : IsUniqueName name = true)
    (hentries : TransitionArray.number_of_entries L a = .ok (keys.length : Int))
    (hkeys : ∀ (j : Nat) (hj : j < keys.length),
      TransitionArray.GetKey L a (j : Int) = .ok keys[j].name ∧
        keys[j].hash = Hash keys[j].name)
    (hsorted : List.Chain' (fun x y => x.compare y < 0) keys) :
    TransitionArray.SearchName IsUniqueName Hash L a name out =
      LinearSearchName Hash L a name out ∧
    ∃ result, TransitionArray.SearchName IsUniqueName Hash L a name out = .ok result ∧
      ((∃ (p : Nat) (hp : p < keys.length), result = ((p : Int), out) ∧
          keys[p].name = name ∧
          ∀ (j : Nat) (hj : j < keys.length), j < p → keys[j].name ≠ name) ∨
        (∃ p : Nat, p ≤ keys.length ∧
          result = (TransitionArray.kNotFound, some (p : Int)) ∧
          (∀ (j : Nat) (hj : j < keys.length), keys[j].name ≠ name) ∧
          (∀ (j : Nat) (hj : j < keys.length) kind attributes, j < p →
            keys[j].compare ⟨name, Hash name, kind, attributes⟩ < 0) ∧
          (∀ (j : Nat) (hj : j < keys.length) kind attributes, p ≤ j →
            Key.compare ⟨name, Hash name, kind, attributes⟩ keys[j] < 0))) := by
  have hd : ∀ (j : Nat) (hj : j < keys.length),
      keys.getD j ⟨⟨0⟩, 0, .kData, ⟨0⟩⟩ = keys[j] :=
    fun j hj => List.getD_eq_getElem keys _ hj
  have hread : ∀ j : Nat, j < keys.length →
      TransitionArray.GetKey L a (j : Int) =
        .ok (keys.getD j ⟨⟨0⟩, 0, .kData, ⟨0⟩⟩).name := by
    intro j hj
    rw [hd j hj]
    exact (hkeys j hj).1
  have hmono := Key.hash_mono_of_chain Hash keys ⟨⟨0⟩, 0, .kData, ⟨0⟩⟩
    (fun j hj => (hkeys j hj).2) hsorted
  obtain ⟨r1, hsearch, hans1⟩ := Search_spec Hash L a name out keys.length _ hread hmono
  obtain ⟨r2, hlinear, hans2⟩ :=
    LinearSearchName_spec Hash L a name out keys.length _ hentries hread hmono
  have hsame := SearchAnswer.unique Hash _ keys.length name out r1 r2 hans1 hans2
  have hname : TransitionArray.SearchName IsUniqueName Hash L a name out = .ok r1 := by
    unfold TransitionArray.SearchName
    simp only [hunique, DCHECK, if_true, hentries, bind, Except.bind]
    exact hsearch
  refine ⟨by rw [hname, hlinear, hsame], r1, hname, ?_⟩
  rcases hans1 with ⟨p, hp, hres, hgp, hleast⟩ | ⟨p, hp, hres, hnone, hbefore, hafter⟩
  · left
    refine ⟨p, hp, hres, ?_, ?_⟩
    · rw [← hd p hp]
      exact hgp
    · intro j hj hjp
      rw [← hd j hj]
      exact hleast j hjp
  · right
    refine ⟨p, hp, hres, ?_, ?_, ?_⟩
    · intro j hj
      rw [← hd j hj]
      exact hnone j hj
    · intro j hj kind attributes hjp
      have h1 : keys[j].name ≠ name := by
        rw [← hd j hj]
        exact hnone j hj
      have h2 : Hash keys[j].name ≤ Hash name := by
        rw [← hd j hj]
        exact hbefore j hjp
      unfold Key.compare
      rw [CompareKeys_other_name _ _ _ _ _ _ _ _ h1, (hkeys j hj).2, if_pos h2]
      decide
    · intro j hj kind attributes hpj
      have h1 : keys[j].name ≠ name := by
        rw [← hd j hj]
        exact hnone j hj
      have h2 : Hash name < Hash keys[j].name := by
        rw [← hd j hj]
        exact hafter j hpj hj
      unfold Key.compare
      rw [CompareKeys_other_name _ _ _ _ _ _ _ _ (Ne.symm h1), (hkeys j hj).2,
        if_pos (le_of_lt h2)]
      decide

/-- C13, at the sample sorted array (keys `⟨1⟩`, `⟨2⟩`, `⟨3⟩`, the hash of a name
being its address): the name `⟨2⟩` is found at the index 1, and the search
agrees with the linear scan for the absent name `⟨4⟩` too. -/
theorem SearchName_agrees_with_linear_scan_witness :
    List.Chain' (fun x y => x.compare y < 0) Key.sampleSorted ∧
    TransitionArray.SearchName (fun _ => true) Name.addr Layout.sample
      TransitionArray.sampleSorted ⟨2⟩ none = .ok (1, none) ∧
    TransitionArray.SearchName (fun _ => true) Name.addr Layout.sample
        TransitionArray.sampleSorted ⟨2⟩ none =
      LinearSearchName Name.addr Layout.sample TransitionArray.sampleSorted ⟨2⟩ none ∧
    TransitionArray.SearchName (fun _ => true) Name.addr Layout.sample
        TransitionArray.sampleSorted ⟨4⟩ none =
      LinearSearchName Name.addr Layout.sample TransitionArray.sampleSorted ⟨4⟩ none :=
  have hkeys : ∀ (j : Nat) (hj : j < Key.sampleSorted.length),
      TransitionArray.GetKey Layout.sample TransitionArray.sampleSorted (j : Int) =
          .ok Key.sampleSorted[j].name ∧
        Key.sampleSorted[j].hash = Name.addr Key.sampleSorted[j].name := by
    intro j hj
    match j, hj with
    | 0, _ => exact ⟨rfl, rfl⟩
    | 1, _ => exact ⟨rfl, rfl⟩
    | 2, _ => exact ⟨rfl, rfl⟩
    | k + 3, h => exact absurd h (by simp [Key.sampleSorted])
  have hsorted : List.Chain' (fun x y => x.compare y < 0) Key.sampleSorted := by
    unfold Key.sampleSorted
    rw [List.chain'_cons, List.chain'_cons]
    exact ⟨by decide, by decide, List.chain'_singleton _⟩
  ⟨hsorted, rfl,
    (SearchName_agrees_with_linear_scan (fun _ => true) Name.addr Layout.sample
      TransitionArray.sampleSorted ⟨2⟩ none Key.sampleSorted rfl rfl hkeys hsorted).1,
    (SearchName_agrees_with_linear_scan (fun _ => true) Name.addr Layout.sample
      TransitionArray.sampleSorted ⟨4⟩ none Key.sampleSorted rfl rfl hkeys hsorted).1⟩

end V8
